import Mathlib

/-!
Shallow embedding of `src/8Queens/8queens_cqm.py`.

The script builds a constrained model for the N-queens problem:
an `N × N` grid of binary variables named `square_r{r}_c{c}`, one
equality constraint (`board_total`), `N` column and `N` row `≤ 1`
constraints, and one `≤ 1` constraint per diagonal of length ≥ 2
(diagonals are enumerated with `np.diag` over the index grid `vnum`
and its column-reversed mirror `rvnum`).  The solver call itself is
external; the result decoder filters feasible samples, truncates to
at most 10, and renders ASCII boards with a `|.q.` per-square cell.

Machine integers are modelled as `Nat`/`Int` (Python integers are
unbounded, so no wrap-around is involved); the float sample values the
renderer compares with `> 0.0` are modelled as rationals, the only
operation on them being that order comparison.
-/

namespace NQueensCQM

/-- `varname(r, c) = "square_r" + str(r) + "_c" + str(c)`. -/
def varname (r c : Nat) : String :=
  "square_r" ++ Nat.repr r ++ "_c" ++ Nat.repr c

/-- `vlabels = [varname(r,c) for r in range(N) for c in range(N)]`. -/
def vlabels (N : Nat) : List String :=
  (List.range N).flatMap (fun r => (List.range N).map (fun c => varname r c))

/-- `vnum = np.array([[ r*N+c for c in range(N)] for r in range(N)])`. -/
def vnum (N : Nat) : List (List Nat) :=
  (List.range N).map (fun r => (List.range N).map (fun c => r * N + c))

/-- `rvnum = vnum[:, ::-1]` (each row reversed). -/
def rvnum (N : Nat) : List (List Nat) :=
  (vnum N).map List.reverse

/-- Python `range(lo, hi)` over integers: `[lo, lo+1, …, hi-1]`. -/
def pyRange (lo hi : Int) : List Int :=
  (List.range (hi - lo).toNat).map (fun i : Nat => lo + (i : Int))

/-- `np.diag(a, k)` for a square two-dimensional integer array:
the entries `a[i][i+k]` for every `i` for which both indices are valid. -/
def npDiag (a : List (List Nat)) (k : Int) : List Nat :=
  ((List.range a.length).filter
      (fun i : Nat => decide (0 ≤ (i : Int) + k) && decide ((i : Int) + k < (a.length : Int)))).map
    (fun i : Nat => (a.getD i []).getD ((i : Int) + k).toNat 0)

/-- The `diags` loop: for `a` in `[vnum, rvnum]`, for `k` in
`range(-(N-2), N-1)`, collect `np.diag(a, k)`. -/
def diags (N : Nat) : List (List Nat) :=
  ([vnum N, rvnum N]).flatMap (fun a =>
    (pyRange (-((N : Int) - 2)) ((N : Int) - 1)).map (fun k => npDiag a k))

/-- `variables = [dimod.Binary(varname(r,c)) for r in range(N) for c in range(N)]`:
a `dimod.Binary` object is identified by the name of its variable. -/
def variablesList (N : Nat) : List String :=
  (List.range N).flatMap (fun r => (List.range N).map (fun c => varname r c))

/-- `board = {(r,c) : variables[r*N+c] …}`. -/
def board (N r c : Nat) : String :=
  (variablesList N).getD (r * N + c) ""

/-- Comparison sense of a constraint (`==` or `<=`). -/
inductive Cmp
  | eq
  | le
deriving DecidableEq

/-- One linear constraint of the CQM: the summed variables (by square
index), the comparison sense, the right-hand bound and the label. -/
structure Constraint where
  vars : List Nat
  cmp : Cmp
  bound : Nat
  label : String
deriving DecidableEq

/-- `cqm.add_constraint(sum(board[r,c] …) == NQ, label="board_total")`. -/
def boardTotal (N NQ : Nat) : Constraint :=
  ⟨(List.range N).flatMap (fun r => (List.range N).map (fun c => r * N + c)),
    Cmp.eq, NQ, "board_total"⟩

/-- `cqm.add_constraint(sum(board[r,c] for r in range(N)) <= 1, label=f"col_{c}_total")`. -/
def colConstraint (N c : Nat) : Constraint :=
  ⟨(List.range N).map (fun r => r * N + c), Cmp.le, 1, "col_" ++ Nat.repr c ++ "_total"⟩

/-- `cqm.add_constraint(sum(board[r,c] for c in range(N)) <= 1, label=f"row_{r}_total")`. -/
def rowConstraint (N r : Nat) : Constraint :=
  ⟨(List.range N).map (fun c => r * N + c), Cmp.le, 1, "row_" ++ Nat.repr r ++ "_total"⟩

/-- `cqm.add_constraint(sum(variables[v] for v in d) <= 1, label=f"diag_{i}_total")`. -/
def diagConstraint (i : Nat) (d : List Nat) : Constraint :=
  ⟨d, Cmp.le, 1, "diag_" ++ Nat.repr i ++ "_total"⟩

/-- The assembled CQM.  `dimod.CQM()` starts with an empty objective and
the script never sets one, which we record as `objective = none`. -/
structure Model where
  constraints : List Constraint
  objective : Option (List (Nat × Int))

/-- The whole model-building phase of the script, in source order:
`board_total`, the column constraints, the row constraints, the
diagonal constraints.  No objective is ever set. -/
def buildModel (N NQ : Nat) : Model :=
  { constraints :=
      boardTotal N NQ ::
        ((List.range N).map (colConstraint N) ++
          (List.range N).map (rowConstraint N) ++
          (diags N).enum.map (fun p => diagConstraint p.1 p.2)),
    objective := none }

/-- Value of the left-hand side `sum(…)` of a constraint under a 0/1
assignment `f` to the square variables. -/
def lhsSum (f : Nat → Bool) (vs : List Nat) : Nat :=
  (vs.map (fun v => if f v then 1 else 0)).sum

/-- Whether an assignment meets one constraint. -/
def constrHolds (f : Nat → Bool) (ct : Constraint) : Bool :=
  match ct.cmp with
  | Cmp.eq => lhsSum f ct.vars == ct.bound
  | Cmp.le => decide (lhsSum f ct.vars ≤ ct.bound)

/-- Whether an assignment is feasible for the whole model. -/
def satisfiesModel (f : Nat → Bool) (M : Model) : Bool :=
  M.constraints.all (constrHolds f)

/-! ### Generic list lemmas -/

theorem lhsSum_eq_countP (f : Nat → Bool) (vs : List Nat) : lhsSum f vs = vs.countP f := by
  induction vs with
  | nil => rfl
  | cons v t ih =>
    rw [lhsSum, List.map_cons, List.sum_cons, List.countP_cons]
    rw [lhsSum] at ih
    rw [ih]
    cases h : f v
    · simp [h]
    · simp only [h, if_true]
      omega

theorem two_le_length_of_two_mem {α : Type} {x y : α} {l : List α}
    (hx : x ∈ l) (hy : y ∈ l) (hxy : x ≠ y) : 2 ≤ l.length := by
  cases l with
  | nil => simp at hx
  | cons a t =>
    cases t with
    | nil => simp_all
    | cons b u => simp only [List.length_cons]; omega

theorem two_le_countP {α : Type} {x y : α} {l : List α} {p : α → Bool}
    (hx : x ∈ l) (hy : y ∈ l) (hxy : x ≠ y) (hpx : p x = true) (hpy : p y = true) :
    2 ≤ l.countP p := by
  rw [List.countP_eq_length_filter]
  exact two_le_length_of_two_mem (List.mem_filter.2 ⟨hx, hpx⟩) (List.mem_filter.2 ⟨hy, hpy⟩) hxy

theorem exists_two_of_countP {α : Type} {l : List α} {p : α → Bool}
    (hnd : l.Nodup) (h2 : 2 ≤ l.countP p) :
    ∃ x, x ∈ l ∧ ∃ y, y ∈ l ∧ x ≠ y ∧ p x = true ∧ p y = true := by
  rw [List.countP_eq_length_filter] at h2
  have hndf : (l.filter p).Nodup := hnd.filter p
  match hfp : l.filter p, h2 with
  | x :: y :: t, _ =>
    rw [hfp] at hndf
    have hx : x ∈ l.filter p := by rw [hfp]; exact List.mem_cons_self _ _
    have hy : y ∈ l.filter p := by rw [hfp]; simp
    have hxy : x ≠ y := by
      have := List.nodup_cons.1 hndf
      intro h; exact this.1 (h ▸ List.mem_cons_self _ _)
    exact ⟨x, (List.mem_filter.1 hx).1, y, (List.mem_filter.1 hy).1, hxy,
      (List.mem_filter.1 hx).2, (List.mem_filter.1 hy).2⟩

theorem flatMap_grid {α : Type} (g : Nat → Nat → α) (m n : Nat) :
    (List.range m).flatMap (fun r => (List.range n).map (fun c => g r c)) =
      (List.range (m * n)).map (fun v => g (v / n) (v % n)) := by
  induction m with
  | zero => simp
  | succ m ih =>
    rw [List.range_succ, List.flatMap_append, ih, Nat.succ_mul, List.range_add, List.map_append]
    simp only [List.flatMap_cons, List.flatMap_nil, List.append_nil, List.map_map]
    congr 1
    apply List.map_congr_left
    intro c hc
    simp only [List.mem_range] at hc
    have hn : 0 < n := by omega
    have h1 : (m * n + c) / n = m := by
      rw [Nat.mul_comm m n, Nat.mul_add_div hn, Nat.div_eq_of_lt hc, Nat.add_zero]
    have h2 : (m * n + c) % n = c := by
      rw [Nat.mul_comm m n, Nat.mul_add_mod, Nat.mod_eq_of_lt hc]
    simp [Function.comp, h1, h2]

theorem range_grid (m n : Nat) :
    (List.range m).flatMap (fun r => (List.range n).map (fun c => r * n + c)) =
      List.range (m * n) := by
  rw [flatMap_grid]
  have : ∀ v ∈ List.range (m * n), v / n * n + v % n = v := by
    intro v _
    rw [Nat.mul_comm (v / n) n]
    exact Nat.div_add_mod v n
  rw [List.map_congr_left this]
  simp

theorem sum_le_length (l : List Nat) (h : ∀ x ∈ l, x ≤ 1) : l.sum ≤ l.length := by
  induction l with
  | nil => simp
  | cons a t ih =>
    have ha := h a (List.mem_cons_self _ _)
    have := ih (fun x hx => h x (List.mem_cons_of_mem _ hx))
    simp only [List.sum_cons, List.length_cons]
    omega

theorem eq_one_of_sum_eq_length (l : List Nat) (h : ∀ x ∈ l, x ≤ 1)
    (hs : l.sum = l.length) : ∀ x ∈ l, x = 1 := by
  induction l with
  | nil => simp
  | cons a t ih =>
    have ha := h a (List.mem_cons_self _ _)
    have ht : ∀ x ∈ t, x ≤ 1 := fun x hx => h x (List.mem_cons_of_mem _ hx)
    have hle := sum_le_length t ht
    simp only [List.sum_cons, List.length_cons] at hs
    intro x hx
    rcases List.mem_cons.1 hx with rfl | hx'
    · omega
    · exact ih ht (by omega) x hx'

theorem countP_flatMap {α β : Type} (p : β → Bool) (g : α → List β) (l : List α) :
    (l.flatMap g).countP p = (l.map (fun a => (g a).countP p)).sum := by
  induction l with
  | nil => rfl
  | cons a t ih => simp [List.countP_append, ih]

theorem countP_eq_one_filter {α : Type} {l : List α} {p : α → Bool}
    (h : l.countP p = 1) : ∃ a, l.filter p = [a] := by
  rw [List.countP_eq_length_filter] at h
  exact List.length_eq_one.1 h

/-! ### Injectivity of `Nat.repr`

The labels of the constraints interpolate decimal numerals; their pairwise
distinctness needs the decimal printer to be injective, which we prove by
exhibiting a decoder. -/

/-- Numeric value of a decimal digit character. -/
def digitVal (ch : Char) : Nat := ch.toNat - 48

/-- Decimal reading of a digit string. -/
def decRead (l : List Char) : Nat := l.foldl (fun a ch => a * 10 + digitVal ch) 0

/-- Reference decimal digit expansion (most significant first). -/
def decDigits (n : Nat) : List Char :=
  if n < 10 then [Nat.digitChar n]
  else decDigits (n / 10) ++ [Nat.digitChar (n % 10)]
termination_by n
decreasing_by exact Nat.div_lt_self (by omega) (by omega)

theorem toDigitsCore_eq_decDigits (fuel : Nat) :
    ∀ (n : Nat) (ds : List Char), n < fuel →
      Nat.toDigitsCore 10 fuel n ds = decDigits n ++ ds := by
  induction fuel with
  | zero => intro n ds h; omega
  | succ fuel ih =>
    intro n ds h
    rw [Nat.toDigitsCore]
    by_cases h10 : n / 10 = 0
    · have hlt : n < 10 := by omega
      have hmod : n % 10 = n := Nat.mod_eq_of_lt hlt
      rw [if_pos h10, decDigits, if_pos hlt, hmod]
      rfl
    · have hge : 10 ≤ n := by
        by_contra hc
        exact h10 (Nat.div_eq_of_lt (by omega))
      have hlt' : n / 10 < fuel := by
        have hds : n / 10 < n := Nat.div_lt_self (by omega : 0 < n) (by omega : 1 < 10)
        omega
      rw [if_neg h10, ih (n / 10) _ hlt']
      conv_rhs => rw [decDigits]
      rw [if_neg (by omega : ¬ n < 10)]
      simp [List.append_assoc]

theorem digitVal_digitChar : ∀ d, d < 10 → digitVal (Nat.digitChar d) = d := by decide

theorem decRead_decDigits (n : Nat) : decRead (decDigits n) = n := by
  induction n using Nat.strong_induction_on with
  | _ n ih =>
    rw [decDigits]
    by_cases h : n < 10
    · rw [if_pos h]
      simp only [decRead, List.foldl_cons, List.foldl_nil, Nat.zero_mul, Nat.zero_add]
      exact digitVal_digitChar n h
    · rw [if_neg h]
      have hdiv : n / 10 < n := Nat.div_lt_self (by omega) (by omega)
      simp only [decRead, List.foldl_append, List.foldl_cons, List.foldl_nil]
      have ihd := ih (n / 10) hdiv
      simp only [decRead] at ihd
      rw [ihd, digitVal_digitChar (n % 10) (Nat.mod_lt _ (by omega))]
      have := Nat.div_add_mod n 10
      omega

theorem toDigits_eq_decDigits (n : Nat) : Nat.toDigits 10 n = decDigits n := by
  rw [Nat.toDigits, toDigitsCore_eq_decDigits (n + 1) n [] (by omega), List.append_nil]

theorem repr_injective : Function.Injective Nat.repr := by
  intro m n h
  have hd : Nat.toDigits 10 m = Nat.toDigits 10 n := congrArg String.data h
  rw [toDigits_eq_decDigits, toDigits_eq_decDigits] at hd
  have hr := congrArg decRead hd
  rwa [decRead_decDigits, decRead_decDigits] at hr

/-! ### Geometry of the diagonal groups -/

theorem mem_pyRange {lo hi k : Int} : k ∈ pyRange lo hi ↔ lo ≤ k ∧ k < hi := by
  simp only [pyRange, List.mem_map, List.mem_range]
  constructor
  · rintro ⟨i, hi', rfl⟩
    omega
  · intro ⟨h1, h2⟩
    exact ⟨(k - lo).toNat, by omega, by omega⟩

theorem pyRange_nodup (lo hi : Int) : (pyRange lo hi).Nodup := by
  refine List.Nodup.map ?_ (List.nodup_range _)
  intro a b hab
  have hab' : lo + (a : Int) = lo + (b : Int) := hab
  omega

theorem vnum_length (N : Nat) : (vnum N).length = N := by simp [vnum]

theorem vnum_getD {N r : Nat} (hr : r < N) :
    (vnum N).getD r [] = (List.range N).map (fun c => r * N + c) := by
  rw [List.getD_eq_getElem _ _ (by simpa [vnum_length] using hr)]
  simp [vnum]

theorem vnum_entry {N r c : Nat} (hr : r < N) (hc : c < N) :
    ((vnum N).getD r []).getD c 0 = r * N + c := by
  rw [vnum_getD hr, List.getD_eq_getElem _ _ (by simpa using hc)]
  simp

theorem rvnum_length (N : Nat) : (rvnum N).length = N := by simp [rvnum, vnum]

theorem rvnum_entry {N r c : Nat} (hr : r < N) (hc : c < N) :
    ((rvnum N).getD r []).getD c 0 = r * N + (N - 1 - c) := by
  have hrow : (rvnum N).getD r [] = ((List.range N).map (fun c => r * N + c)).reverse := by
    rw [rvnum, List.getD_eq_getElem _ _ (by simpa [rvnum, vnum_length] using hr)]
    simp [vnum]
  rw [hrow, List.getD_eq_getElem _ _ (by simpa using hc)]
  rw [List.getElem_reverse]
  simp only [List.length_map, List.length_range, List.getElem_map, List.getElem_range]

theorem mem_npDiag_vnum {N : Nat} {k : Int} {x : Nat} :
    x ∈ npDiag (vnum N) k ↔
      ∃ r c : Nat, r < N ∧ c < N ∧ x = r * N + c ∧ (c : Int) - (r : Int) = k := by
  simp only [npDiag, vnum_length, List.mem_map, List.mem_filter, List.mem_range,
    Bool.and_eq_true, decide_eq_true_eq]
  constructor
  · rintro ⟨i, ⟨hiN, h0, hN⟩, rfl⟩
    refine ⟨i, ((i : Int) + k).toNat, hiN, by omega, ?_, by omega⟩
    rw [vnum_entry hiN (by omega)]
  · rintro ⟨r, c, hr, hc, rfl, hk⟩
    refine ⟨r, ⟨hr, by omega, by omega⟩, ?_⟩
    have hcc : ((r : Int) + k).toNat = c := by omega
    rw [hcc, vnum_entry hr hc]

theorem mem_npDiag_rvnum {N : Nat} {k : Int} {x : Nat} :
    x ∈ npDiag (rvnum N) k ↔
      ∃ r c : Nat, r < N ∧ c < N ∧ x = r * N + c ∧
        (r : Int) + (c : Int) = (N : Int) - 1 - k := by
  simp only [npDiag, rvnum_length, List.mem_map, List.mem_filter, List.mem_range,
    Bool.and_eq_true, decide_eq_true_eq]
  constructor
  · rintro ⟨i, ⟨hiN, h0, hN⟩, rfl⟩
    refine ⟨i, N - 1 - ((i : Int) + k).toNat, hiN, by omega, ?_, by omega⟩
    rw [rvnum_entry hiN (by omega)]
  · rintro ⟨r, c, hr, hc, rfl, hk⟩
    refine ⟨r, ⟨hr, by omega, by omega⟩, ?_⟩
    have hcc : ((r : Int) + k).toNat = N - 1 - c := by omega
    rw [hcc, rvnum_entry hr (by omega : N - 1 - c < N)]
    congr 1
    omega

theorem mem_diags {N : Nat} {d : List Nat} :
    d ∈ diags N ↔
      ∃ k, k ∈ pyRange (-((N : Int) - 2)) ((N : Int) - 1) ∧
        (d = npDiag (vnum N) k ∨ d = npDiag (rvnum N) k) := by
  simp only [diags, List.flatMap_cons, List.flatMap_nil, List.append_nil, List.mem_append,
    List.mem_map]
  constructor
  · rintro (⟨k, hk, rfl⟩ | ⟨k, hk, rfl⟩)
    · exact ⟨k, hk, Or.inl rfl⟩
    · exact ⟨k, hk, Or.inr rfl⟩
  · rintro ⟨k, hk, rfl | rfl⟩
    · exact Or.inl ⟨k, hk, rfl⟩
    · exact Or.inr ⟨k, hk, rfl⟩

theorem npDiag_vnum_nodup (N : Nat) (k : Int) : (npDiag (vnum N) k).Nodup := by
  apply List.Pairwise.imp (fun h => Nat.ne_of_lt h)
  rw [npDiag, List.pairwise_map]
  have hp : ((List.range (vnum N).length).filter
      (fun i : Nat => decide (0 ≤ (i : Int) + k) &&
        decide ((i : Int) + k < ((vnum N).length : Int)))).Pairwise (· < ·) :=
    (List.pairwise_lt_range _).sublist (List.filter_sublist _)
  refine List.Pairwise.imp_of_mem ?_ hp
  intro i j hi hj hij
  rw [List.mem_filter, List.mem_range] at hi hj
  obtain ⟨hiN, hic⟩ := hi
  obtain ⟨hjN, hjc⟩ := hj
  simp only [Bool.and_eq_true, decide_eq_true_eq, vnum_length] at hic hjc hiN hjN
  rw [vnum_entry hiN (by omega), vnum_entry hjN (by omega)]
  have h1 : ((i : Int) + k).toNat < N := by omega
  calc i * N + ((i : Int) + k).toNat < i * N + N := by omega
    _ = (i + 1) * N := by ring
    _ ≤ j * N := Nat.mul_le_mul_right N (by omega)
    _ ≤ j * N + ((j : Int) + k).toNat := Nat.le_add_right _ _

theorem npDiag_rvnum_nodup (N : Nat) (k : Int) : (npDiag (rvnum N) k).Nodup := by
  apply List.Pairwise.imp (fun h => Nat.ne_of_lt h)
  rw [npDiag, List.pairwise_map]
  have hp : ((List.range (rvnum N).length).filter
      (fun i : Nat => decide (0 ≤ (i : Int) + k) &&
        decide ((i : Int) + k < ((rvnum N).length : Int)))).Pairwise (· < ·) :=
    (List.pairwise_lt_range _).sublist (List.filter_sublist _)
  refine List.Pairwise.imp_of_mem ?_ hp
  intro i j hi hj hij
  rw [List.mem_filter, List.mem_range] at hi hj
  obtain ⟨hiN, hic⟩ := hi
  obtain ⟨hjN, hjc⟩ := hj
  simp only [Bool.and_eq_true, decide_eq_true_eq, rvnum_length] at hic hjc hiN hjN
  rw [rvnum_entry hiN (by omega), rvnum_entry hjN (by omega)]
  calc i * N + (N - 1 - ((i : Int) + k).toNat) < i * N + N := by omega
    _ = (i + 1) * N := by ring
    _ ≤ j * N := Nat.mul_le_mul_right N (by omega)
    _ ≤ j * N + (N - 1 - ((j : Int) + k).toNat) := Nat.le_add_right _ _

theorem nodup_of_mem_diags {N : Nat} {d : List Nat} (hd : d ∈ diags N) : d.Nodup := by
  rcases mem_diags.1 hd with ⟨k, _, rfl | rfl⟩
  · exact npDiag_vnum_nodup N k
  · exact npDiag_rvnum_nodup N k

/-- Two distinct squares on a common "\"-diagonal lie in a common group. -/
theorem common_main_diag {N r r' c c' : Nat}
    (hr : r < N) (hr' : r' < N) (hc : c < N) (hc' : c' < N) (hne : r ≠ r')
    (hdiag : (c : Int) - (r : Int) = (c' : Int) - (r' : Int)) :
    ∃ d ∈ diags N, (r * N + c) ∈ d ∧ (r' * N + c') ∈ d := by
  refine ⟨npDiag (vnum N) ((c : Int) - (r : Int)), ?_, ?_, ?_⟩
  · rw [mem_diags]
    exact ⟨_, mem_pyRange.2 ⟨by omega, by omega⟩, Or.inl rfl⟩
  · exact mem_npDiag_vnum.2 ⟨r, c, hr, hc, rfl, rfl⟩
  · exact mem_npDiag_vnum.2 ⟨r', c', hr', hc', rfl, by omega⟩

/-- Two distinct squares on a common "/"-diagonal lie in a common group. -/
theorem common_anti_diag {N r r' c c' : Nat}
    (hr : r < N) (hr' : r' < N) (hc : c < N) (hc' : c' < N) (hne : r ≠ r')
    (hdiag : (r : Int) + (c : Int) = (r' : Int) + (c' : Int)) :
    ∃ d ∈ diags N, (r * N + c) ∈ d ∧ (r' * N + c') ∈ d := by
  refine ⟨npDiag (rvnum N) ((N : Int) - 1 - ((r : Int) + (c : Int))), ?_, ?_, ?_⟩
  · rw [mem_diags]
    exact ⟨_, mem_pyRange.2 ⟨by omega, by omega⟩, Or.inr rfl⟩
  · exact mem_npDiag_rvnum.2 ⟨r, c, hr, hc, rfl, by omega⟩
  · exact mem_npDiag_rvnum.2 ⟨r', c', hr', hc', rfl, by omega⟩

/-! ### Unfolding model satisfaction into the four constraint families -/

theorem enum_forall {α : Type} (l : List α) (q : α → Prop) :
    (∀ p ∈ l.enum, q p.2) ↔ ∀ d ∈ l, q d := by
  constructor
  · intro h d hd
    have hd' : d ∈ List.map Prod.snd l.enum := by rw [List.enum_map_snd]; exact hd
    rcases List.mem_map.1 hd' with ⟨p, hp, rfl⟩
    exact h p hp
  · intro h p hp
    have hmem : p.2 ∈ List.map Prod.snd l.enum := List.mem_map_of_mem _ hp
    rw [List.enum_map_snd] at hmem
    exact h _ hmem

theorem satisfiesModel_iff (f : Nat → Bool) (N NQ : Nat) :
    satisfiesModel f (buildModel N NQ) = true ↔
      ((List.range (N * N)).countP f = NQ ∧
       (∀ c < N, (List.range N).countP (fun r => f (r * N + c)) ≤ 1) ∧
       (∀ r < N, (List.range N).countP (fun c => f (r * N + c)) ≤ 1) ∧
       (∀ d ∈ diags N, d.countP f ≤ 1)) := by
  rw [satisfiesModel]
  simp only [buildModel, List.all_cons, List.all_append, Bool.and_eq_true,
    List.all_eq_true, List.forall_mem_map, List.mem_range, constrHolds, boardTotal,
    colConstraint, rowConstraint, diagConstraint, lhsSum_eq_countP, List.countP_map,
    Function.comp_def, beq_iff_eq, decide_eq_true_eq, range_grid]
  rw [enum_forall (diags N) (fun d => List.countP f d ≤ 1)]
  tauto

/-! ### The result decoder / renderer -/

/-- One solver sample: the returned variable assignment and its
feasibility flag.  The renderer only ever compares a value with `0.0`,
so values are modelled as rationals. -/
structure Sample where
  assign : String → ℚ
  is_feasible : Bool

/-- `feasible_sampleset = raw_sampleset.filter(lambda d: d.is_feasible)`. -/
def feasibleOf (raw : List Sample) : List Sample :=
  raw.filter (fun s => s.is_feasible)

/-- `best_samples`: `feasible_sampleset.truncate(min(10, num_feasible))`
when feasible samples exist, otherwise `raw_sampleset.truncate(10)`
(`truncate n` keeps the first `n` rows of the sample set). -/
def bestSamples (raw : List Sample) : List Sample :=
  if 0 < (feasibleOf raw).length then
    (feasibleOf raw).take (min 10 (feasibleOf raw).length)
  else raw.take 10

/-- The per-square character: `q = '.'` then `if v > 0.0: q = 'W'`. -/
def queenChar (s : String → ℚ) (r c : Nat) : Char :=
  if 0 < s (varname r c) then 'W' else '.'

/-- The characters printed on the line of row `r`: for each square
`print('|.'+q+'.', end='')`, then `print('|')` closes the line. -/
def rowChars (N : Nat) (s : String → ℚ) (r : Nat) : List Char :=
  ((List.range N).map (fun c => ['|', '.', queenChar s r c, '.'])).flatten ++ ['|']

def renderRow (N : Nat) (s : String → ℚ) (r : Nat) : String :=
  String.mk (rowChars N s r)

/-- The `N` board lines of one sample, row-major (outer loop on `r`). -/
def boardLines (N : Nat) (s : String → ℚ) : List String :=
  (List.range N).map (renderRow N s)

/-- The lines printed for result number `i` (0-based): the
`"Result {i+1}    …"` header, the `N` board rows, the separator. -/
def sampleBlock (N : Nat) (i : Nat) (s : String → ℚ) : List String :=
  ("Result " ++ Nat.repr (i + 1) ++ "    =====================") ::
    (boardLines N s ++ ["================================="])

/-- Every line the result-decoding part of the script prints, in order:
the feasible-sample count, the warning when nothing is feasible, the two
`BEST SAMPLE SET` banner lines (the tabular `print(best_samples)` dump is
the external library's repr and is outside the embedding), then one block
per retained sample. -/
def renderResults (N : Nat) (raw : List Sample) : List String :=
  (Nat.repr (feasibleOf raw).length ++ " Feasible samples") ::
    ((if 0 < (feasibleOf raw).length then []
      else ["Warning: Did not find feasible solution"]) ++
      (" " ::
        "==============================BEST SAMPLE SET==============================" ::
        (bestSamples raw).enum.flatMap (fun p => sampleBlock N p.1 p.2.assign)))

/-! ### Character-level facts about a rendered row -/

theorem flat4_flatten_length {α : Type} (g : Nat → List α) (h4 : ∀ c, (g c).length = 4)
    (l : List Nat) : ((l.map g).flatten).length = 4 * l.length := by
  induction l with
  | nil => simp
  | cons a t ih =>
    simp only [List.map_cons, List.flatten_cons, List.length_append, ih, h4, List.length_cons]
    ring

theorem rowChars_length (N : Nat) (s : String → ℚ) (r : Nat) :
    (rowChars N s r).length = 4 * N + 1 := by
  rw [rowChars, List.length_append,
    flat4_flatten_length (fun c => ['|', '.', queenChar s r c, '.']) (fun c => rfl)
      (List.range N)]
  simp

theorem flat4_getD (N : Nat) :
    ∀ (m : Nat → Char) (c : Nat), c < N →
      (((List.range N).map (fun c => ['|', '.', m c, '.'])).flatten ++ ['|']).getD
          (4 * c + 2) ' ' = m c := by
  induction N with
  | zero => intro m c hc; omega
  | succ n ih =>
    intro m c hc
    rw [List.range_succ_eq_map, List.map_cons, List.flatten_cons, List.map_map,
      List.append_assoc]
    cases c with
    | zero => rfl
    | succ c' =>
      have hidx : 4 * (c' + 1) + 2 = (4 * c' + 2) + 1 + 1 + 1 + 1 := by ring
      rw [hidx]
      simp only [List.cons_append, List.getD_cons_succ, List.nil_append]
      exact ih (fun c => m (c + 1)) c' (by omega)

theorem flat4_count (m : Nat → Char) (l : List Nat) :
    ((l.map (fun c => ['|', '.', m c, '.'])).flatten ++ ['|']).count 'W' =
      l.countP (fun c => m c == 'W') := by
  induction l with
  | nil => simp
  | cons a t ih =>
    simp only [List.map_cons, List.flatten_cons, List.append_assoc, List.count_append,
      List.countP_cons] at ih ⊢
    have hch : List.count 'W' ['|', '.', m a, '.'] = if (m a == 'W') = true then 1 else 0 := by
      by_cases h : m a = 'W' <;> simp [List.count_cons, h]
    omega

theorem rowChars_getD (N : Nat) (s : String → ℚ) (r c : Nat) (hc : c < N) :
    (rowChars N s r).getD (4 * c + 2) ' ' = queenChar s r c :=
  flat4_getD N (queenChar s r) c hc

theorem rowChars_last (N : Nat) (s : String → ℚ) (r : Nat) :
    (rowChars N s r).getD (4 * N) ' ' = '|' := by
  rw [rowChars, List.getD_append_right]
  · rw [flat4_flatten_length (fun c => ['|', '.', queenChar s r c, '.']) (fun c => rfl)
      (List.range N)]
    simp
  · rw [flat4_flatten_length (fun c => ['|', '.', queenChar s r c, '.']) (fun c => rfl)
      (List.range N)]
    simp

theorem rowChars_count (N : Nat) (s : String → ℚ) (r : Nat) :
    (rowChars N s r).count 'W' =
      (List.range N).countP (fun c => decide (0 < s (varname r c))) := by
  rw [rowChars, flat4_count]
  apply List.countP_congr
  intro c _
  rw [queenChar]
  by_cases h : 0 < s (varname r c) <;> simp [h]

/-! ### A verified enumeration of the 8-queens placements

Proof infrastructure (not part of the embedding): a pruned backtracking
enumeration of non-attacking placements, used to count the feasible
assignments of the `N = 8`, `NQ = 8` model. -/

/-- Non-attack check of a new queen `c` against already placed queens
`qs`; the `i`-th entry of `qs` sits `i + 1` rows away. -/
def safeB (c : Nat) (qs : List Nat) : Bool :=
  (List.range qs.length).all (fun i =>
    !(qs.getD i 0 == c) && !(qs.getD i 0 == c + (i + 1)) && !(c == qs.getD i 0 + (i + 1)))

/-- All width-`W` non-attacking extensions of `qs` by `n` further rows. -/
def queensAux (W : Nat) : Nat → List Nat → List (List Nat)
  | 0, qs => [qs]
  | n + 1, qs =>
    ((List.range W).filter (fun c => safeB c qs)).flatMap (fun c => queensAux W n (c :: qs))

def solutions8 : List (List Nat) := queensAux 8 8 []

/-- Pairwise non-attack along the whole column list. -/
def allSafeB : List Nat → Bool
  | [] => true
  | c :: qs => safeB c qs && allSafeB qs

/-- Pairwise non-attack, stated positionally. -/
def noAttack (l : List Nat) : Prop :=
  ∀ i j, i < j → j < l.length →
    l.getD i 0 ≠ l.getD j 0 ∧ l.getD i 0 + (j - i) ≠ l.getD j 0 ∧
      l.getD j 0 + (j - i) ≠ l.getD i 0

theorem safeB_iff (c : Nat) (qs : List Nat) :
    safeB c qs = true ↔
      ∀ i < qs.length,
        qs.getD i 0 ≠ c ∧ qs.getD i 0 ≠ c + (i + 1) ∧ c ≠ qs.getD i 0 + (i + 1) := by
  simp [safeB, List.all_eq_true, List.mem_range, and_assoc]

theorem allSafeB_iff : ∀ l : List Nat, allSafeB l = true ↔ noAttack l := by
  intro l
  induction l with
  | nil =>
    simp only [allSafeB, noAttack, List.length_nil, true_iff]
    intro i j _ hj
    omega
  | cons c qs ih =>
    rw [allSafeB, Bool.and_eq_true, safeB_iff, ih]
    constructor
    · rintro ⟨hs, na⟩ i j hij hj
      simp only [List.length_cons] at hj
      cases i with
      | zero =>
        cases j with
        | zero => omega
        | succ j' =>
          have := hs j' (by omega)
          simp only [List.getD_cons_zero, List.getD_cons_succ]
          refine ⟨(this.1).symm, ?_, ?_⟩
          · have h2 := this.2.1
            intro hcon
            apply h2
            omega
          · have h3 := this.2.2
            intro hcon
            apply h3
            omega
      | succ i' =>
        cases j with
        | zero => omega
        | succ j' =>
          have := na i' j' (by omega) (by omega)
          simp only [List.getD_cons_succ]
          have hgap : j' + 1 - (i' + 1) = j' - i' := by omega
          rw [hgap]
          exact this
    · intro na
      constructor
      · intro i hi
        have := na 0 (i + 1) (by omega) (by simp; omega)
        simp only [List.getD_cons_zero, List.getD_cons_succ] at this
        refine ⟨(this.1).symm, ?_, ?_⟩
        · intro hcon
          apply this.2.1
          omega
        · intro hcon
          apply this.2.2
          omega
      · intro i j hij hj
        have := na (i + 1) (j + 1) (by omega) (by simp; omega)
        simp only [List.getD_cons_succ] at this
        have hgap : j + 1 - (i + 1) = j - i := by omega
        rw [hgap] at this
        exact this

theorem allSafeB_suffix : ∀ xs ys : List Nat, allSafeB (xs ++ ys) = true → allSafeB ys = true := by
  intro xs
  induction xs with
  | nil => intro ys h; exact h
  | cons a t ih =>
    intro ys h
    rw [List.cons_append, allSafeB, Bool.and_eq_true] at h
    exact ih ys h.2

theorem queensAux_sound (W : Nat) :
    ∀ n qs l, l ∈ queensAux W n qs →
      l.length = n + qs.length ∧ l.drop n = qs ∧ (∀ c ∈ l.take n, c < W) ∧
        (allSafeB qs = true → allSafeB l = true) := by
  intro n
  induction n with
  | zero =>
    intro qs l hl
    simp only [queensAux, List.mem_singleton] at hl
    subst hl
    simp
  | succ n ih =>
    intro qs l hl
    simp only [queensAux, List.mem_flatMap, List.mem_filter, List.mem_range] at hl
    obtain ⟨c, ⟨hcW, hcs⟩, hl⟩ := hl
    obtain ⟨hlen, hdrop, htake, hsafe⟩ := ih (c :: qs) l hl
    simp only [List.length_cons] at hlen
    have hn : l[n]? = some c := by
      have hgd := List.getElem?_drop l n 0
      rw [hdrop] at hgd
      simpa using hgd.symm
    refine ⟨by omega, ?_, ?_, ?_⟩
    · have hdd : l.drop (n + 1) = (l.drop n).drop 1 := by
        rw [List.drop_drop]
      rw [hdd, hdrop, List.drop_one, List.tail_cons]
    · intro x hx
      rw [List.take_succ, hn] at hx
      simp only [Option.toList_some, List.mem_append, List.mem_singleton] at hx
      rcases hx with hx | rfl
      · exact htake x hx
      · exact hcW
    · intro hq
      exact hsafe (by rw [allSafeB, Bool.and_eq_true]; exact ⟨hcs, hq⟩)

theorem queensAux_complete (W : Nat) :
    ∀ n p qs, p.length = n → (∀ c ∈ p, c < W) → allSafeB (p ++ qs) = true →
      (p ++ qs) ∈ queensAux W n qs := by
  intro n
  induction n with
  | zero =>
    intro p qs hp _ _
    have hnil : p = [] := List.eq_nil_of_length_eq_zero hp
    subst hnil
    simp [queensAux]
  | succ n ih =>
    intro p qs hp hpw hsafe
    rcases List.eq_nil_or_concat p with rfl | ⟨L, b, rfl⟩
    · simp at hp
    · simp only [List.concat_eq_append] at hp hpw hsafe ⊢
      have hassoc : L ++ [b] ++ qs = L ++ (b :: qs) := by simp
      rw [hassoc] at hsafe ⊢
      have hsfx : allSafeB (b :: qs) = true := allSafeB_suffix L (b :: qs) hsafe
      rw [allSafeB, Bool.and_eq_true] at hsfx
      simp only [queensAux, List.mem_flatMap, List.mem_filter, List.mem_range]
      refine ⟨b, ⟨hpw b (by simp), hsfx.1⟩, ?_⟩
      apply ih L (b :: qs)
      · simp only [List.length_append, List.length_singleton] at hp
        omega
      · intro c hc
        exact hpw c (by simp [hc])
      · exact hsafe

theorem mem_solutions8 {l : List Nat} :
    l ∈ solutions8 ↔ l.length = 8 ∧ (∀ c ∈ l, c < 8) ∧ allSafeB l = true := by
  constructor
  · intro h
    obtain ⟨hlen, _, htake, hsafe⟩ := queensAux_sound 8 8 [] l h
    simp only [List.length_nil, Nat.add_zero] at hlen
    have htl : l.take 8 = l := List.take_of_length_le (by omega)
    rw [htl] at htake
    exact ⟨hlen, htake, hsafe rfl⟩
  · rintro ⟨h1, h2, h3⟩
    have hm := queensAux_complete 8 8 l [] h1 h2 (by simpa using h3)
    simpa using hm

set_option maxHeartbeats 4000000 in
theorem solutions8_length : solutions8.length = 92 := by decide

set_option maxHeartbeats 4000000 in
theorem solutions8_nodup : solutions8.Nodup := by decide

/-! ### Counting the feasible assignments of the 8×8 model -/

/-- Lift a `Fin 64`-indexed 0/1 assignment to the index space of the model
(indices outside the board are unused by the model's constraints). -/
def fOf (a : Fin 64 → Bool) : Nat → Bool :=
  fun v => if h : v < 64 then a ⟨v, h⟩ else false

/-- The 0/1 assignments of the 64 square variables that satisfy every
constraint of `buildModel 8 8`. -/
def feasibleSet : Finset (Fin 64 → Bool) :=
  Finset.univ.filter (fun a => satisfiesModel (fOf a) (buildModel 8 8) = true)

/-- Column of the (unique) queen in row `r`. -/
def colAt (f : Nat → Bool) (r : Nat) : Nat :=
  ((List.range 8).filter (fun c => f (r * 8 + c))).headD 0

/-- The per-row queen columns of an assignment. -/
def colsOf (a : Fin 64 → Bool) : List Nat :=
  (List.range 8).map (fun r => colAt (fOf a) r)

/-- The assignment placing the queen of row `r` at column `l[r]`. -/
def asgOf (l : List Nat) : Fin 64 → Bool :=
  fun v => l.getD ((v : Nat) / 8) 8 == (v : Nat) % 8

theorem countP_congr_fn {α : Type} {l : List α} {p q : α → Bool}
    (h : ∀ x ∈ l, p x = q x) : l.countP p = l.countP q := by
  rw [List.countP_eq_length_filter, List.countP_eq_length_filter, List.filter_congr h]

theorem beq_eq_decide (x c : Nat) : (x == c) = decide (c = x) := by
  by_cases h : x = c
  · simp [h]
  · simp [h, Ne.symm h]

theorem filter_beq_range {x n : Nat} (h : x < n) :
    (List.range n).filter (fun c => x == c) = [x] := by
  have hcg : (List.range n).filter (fun c => x == c) =
      (List.range n).filter (fun c => decide (c = x)) :=
    List.filter_congr (fun c _ => beq_eq_decide x c)
  rw [hcg, List.filter_eq,
    List.count_eq_one_of_mem (List.nodup_range n) (List.mem_range.2 h)]
  rfl

theorem countP_beq_range {x n : Nat} (h : x < n) :
    (List.range n).countP (fun c => x == c) = 1 := by
  rw [List.countP_eq_length_filter, filter_beq_range h]
  rfl

theorem countP_beq_range_le (x n : Nat) :
    (List.range n).countP (fun c => x == c) ≤ 1 := by
  by_cases h : x < n
  · rw [countP_beq_range h]
  · rw [List.countP_eq_length_filter]
    have : (List.range n).filter (fun c => x == c) = [] := by
      rw [List.filter_eq_nil_iff]
      intro c hc
      simp only [beq_iff_eq]
      intro hxc
      exact h (hxc ▸ List.mem_range.1 hc)
    rw [this]
    simp

theorem countP_grid (f : Nat → Bool) (m n : Nat) :
    (List.range (m * n)).countP f =
      ((List.range m).map (fun r => (List.range n).countP (fun c => f (r * n + c)))).sum := by
  rw [← range_grid, countP_flatMap]
  congr 1
  apply List.map_congr_left
  intro r _
  rw [List.countP_map]
  rfl

theorem rows_exactly_one {f : Nat → Bool}
    (htot : (List.range (8 * 8)).countP f = 8)
    (hrow : ∀ r < 8, (List.range 8).countP (fun c => f (r * 8 + c)) ≤ 1) :
    ∀ r < 8, (List.range 8).countP (fun c => f (r * 8 + c)) = 1 := by
  rw [countP_grid f 8 8] at htot
  have hmem1 : ∀ x ∈ (List.range 8).map
      (fun r => (List.range 8).countP (fun c => f (r * 8 + c))), x ≤ 1 := by
    intro x hx
    rcases List.mem_map.1 hx with ⟨r, hr, rfl⟩
    exact hrow r (List.mem_range.1 hr)
  have hall := eq_one_of_sum_eq_length _ hmem1 (by rw [htot]; simp)
  intro r hr
  exact hall _ (List.mem_map_of_mem _ (List.mem_range.2 hr))

/-- Structure extracted from a row that holds exactly one queen. -/
theorem row_unique {f : Nat → Bool} {r : Nat}
    (h1 : (List.range 8).countP (fun c => f (r * 8 + c)) = 1) :
    colAt f r < 8 ∧ f (r * 8 + colAt f r) = true ∧
      ∀ c < 8, f (r * 8 + c) = true → c = colAt f r := by
  obtain ⟨a, ha⟩ := countP_eq_one_filter h1
  have hcol : colAt f r = a := by rw [colAt, ha]; rfl
  have haf : a ∈ (List.range 8).filter (fun c => f (r * 8 + c)) := by
    rw [ha]; exact List.mem_singleton_self a
  rw [List.mem_filter, List.mem_range] at haf
  refine ⟨hcol ▸ haf.1, hcol ▸ haf.2, ?_⟩
  intro c hc hfc
  have hcf : c ∈ (List.range 8).filter (fun c => f (r * 8 + c)) :=
    List.mem_filter.2 ⟨List.mem_range.2 hc, hfc⟩
  rw [ha, List.mem_singleton] at hcf
  rw [hcol]
  exact hcf

theorem getD_default {l : List Nat} {i : Nat} (h : i < l.length) (d d' : Nat) :
    l.getD i d = l.getD i d' := by
  rw [List.getD_eq_getElem _ _ h, List.getD_eq_getElem _ _ h]

theorem colsOf_getD {a : Fin 64 → Bool} {t : Nat} (ht : t < 8) (d : Nat) :
    (colsOf a).getD t d = colAt (fOf a) t := by
  rw [colsOf, List.getD_eq_getElem _ _ (by simpa using ht)]
  simp

theorem asgOf_apply (l : List Nat) {r c : Nat} (hr : r < 8) (hc : c < 8) :
    fOf (asgOf l) (r * 8 + c) = (l.getD r 8 == c) := by
  rw [fOf, dif_pos (by omega : r * 8 + c < 64)]
  have hshow : asgOf l ⟨r * 8 + c, by omega⟩ =
      (l.getD ((r * 8 + c) / 8) 8 == (r * 8 + c) % 8) := rfl
  have h1 : (r * 8 + c) / 8 = r := by omega
  have h2 : (r * 8 + c) % 8 = c := by omega
  rw [hshow, h1, h2]

theorem colsOf_mem_solutions8 {a : Fin 64 → Bool}
    (ha : satisfiesModel (fOf a) (buildModel 8 8) = true) : colsOf a ∈ solutions8 := by
  rw [satisfiesModel_iff] at ha
  obtain ⟨htot, hcol, hrow, hdiag⟩ := ha
  have hone := rows_exactly_one htot hrow
  rw [mem_solutions8]
  refine ⟨by simp [colsOf], ?_, ?_⟩
  · intro c hc
    rcases List.mem_map.1 hc with ⟨r, hr, rfl⟩
    exact (row_unique (hone r (List.mem_range.1 hr))).1
  · rw [allSafeB_iff]
    intro i j hij hj
    have hlen : (colsOf a).length = 8 := by simp [colsOf]
    rw [hlen] at hj
    rw [colsOf_getD (by omega) 0, colsOf_getD hj 0]
    obtain ⟨hci, hfi, hui⟩ := row_unique (hone i (by omega))
    obtain ⟨hcj, hfj, huj⟩ := row_unique (hone j hj)
    have hne : i ≠ j := by omega
    refine ⟨?_, ?_, ?_⟩
    · intro hcc
      have h2 : 2 ≤ (List.range 8).countP
          (fun r => fOf a (r * 8 + colAt (fOf a) i)) :=
        two_le_countP (List.mem_range.2 (by omega : i < 8)) (List.mem_range.2 hj) hne hfi
          (by rw [hcc]; exact hfj)
      have hle := hcol _ hci
      omega
    · intro hcc
      obtain ⟨d, hd, hmi, hmj⟩ := common_main_diag (by omega : i < 8) hj hci hcj hne
        (by omega : (colAt (fOf a) i : Int) - i = (colAt (fOf a) j : Int) - j)
      have hxy : i * 8 + colAt (fOf a) i ≠ j * 8 + colAt (fOf a) j := by omega
      have h2 := two_le_countP hmi hmj hxy hfi hfj
      have hle := hdiag d hd
      omega
    · intro hcc
      obtain ⟨d, hd, hmi, hmj⟩ := common_anti_diag (by omega : i < 8) hj hci hcj hne
        (by omega : (i : Int) + colAt (fOf a) i = (j : Int) + colAt (fOf a) j)
      have hxy : i * 8 + colAt (fOf a) i ≠ j * 8 + colAt (fOf a) j := by omega
      have h2 := two_le_countP hmi hmj hxy hfi hfj
      have hle := hdiag d hd
      omega

theorem asgOf_mem_feasible {l : List Nat} (hl : l ∈ solutions8) :
    satisfiesModel (fOf (asgOf l)) (buildModel 8 8) = true := by
  rw [mem_solutions8] at hl
  obtain ⟨hlen, hmem, hsafe⟩ := hl
  rw [allSafeB_iff] at hsafe
  have hql : ∀ r, r < 8 → l.getD r 8 < 8 := by
    intro r hr
    apply hmem
    rw [List.getD_eq_getElem _ _ (by omega)]
    exact List.getElem_mem _
  rw [satisfiesModel_iff]
  refine ⟨?_, ?_, ?_, ?_⟩
  · rw [countP_grid]
    have hone : ∀ r ∈ List.range 8,
        (List.range 8).countP (fun c => fOf (asgOf l) (r * 8 + c)) = 1 := by
      intro r hr
      rw [List.mem_range] at hr
      rw [countP_congr_fn (fun c hc => asgOf_apply l hr (List.mem_range.1 hc))]
      exact countP_beq_range (hql r hr)
    rw [List.map_congr_left hone]
    simp
  · intro c hc
    by_contra hcon
    rw [Nat.not_le] at hcon
    obtain ⟨i, hi, j, hjm, hij, hpi, hpj⟩ :=
      exists_two_of_countP (List.nodup_range 8)
        (show 2 ≤ (List.range 8).countP (fun r => fOf (asgOf l) (r * 8 + c)) by omega)
    rw [List.mem_range] at hi hjm
    have hpi' : l.getD i 8 = c := by
      have h0 : fOf (asgOf l) (i * 8 + c) = true := hpi
      rwa [asgOf_apply l hi hc, beq_iff_eq] at h0
    have hpj' : l.getD j 8 = c := by
      have h0 : fOf (asgOf l) (j * 8 + c) = true := hpj
      rwa [asgOf_apply l hjm hc, beq_iff_eq] at h0
    rcases Nat.lt_or_ge i j with hlt | hge
    · apply (hsafe i j hlt (by omega)).1
      rw [getD_default (by omega) 0 8, getD_default (by omega) 0 8, hpi', hpj']
    · apply (hsafe j i (by omega) (by omega)).1
      rw [getD_default (by omega) 0 8, getD_default (by omega) 0 8, hpi', hpj']
  · intro r hr
    rw [countP_congr_fn (fun c hc => asgOf_apply l hr (List.mem_range.1 hc))]
    exact countP_beq_range_le _ _
  · intro d hd
    by_contra hcon
    rw [Nat.not_le] at hcon
    obtain ⟨x, hx, y, hy, hxy, hpx, hpy⟩ :=
      exists_two_of_countP (nodup_of_mem_diags hd)
        (show 2 ≤ d.countP (fOf (asgOf l)) by omega)
    rcases mem_diags.1 hd with ⟨k, hk, rfl | rfl⟩
    · obtain ⟨rx, cx, hrx, hcx, rfl, hkx⟩ := mem_npDiag_vnum.1 hx
      obtain ⟨ry, cy, hry, hcy, rfl, hky⟩ := mem_npDiag_vnum.1 hy
      have hpx' : l.getD rx 8 = cx := by
        have h0 : fOf (asgOf l) (rx * 8 + cx) = true := hpx
        rwa [asgOf_apply l hrx hcx, beq_iff_eq] at h0
      have hpy' : l.getD ry 8 = cy := by
        have h0 : fOf (asgOf l) (ry * 8 + cy) = true := hpy
        rwa [asgOf_apply l hry hcy, beq_iff_eq] at h0
      have hrne : rx ≠ ry := by
        intro h
        apply hxy
        have hcxy : cx = cy := by omega
        rw [h, hcxy]
      rcases Nat.lt_or_ge rx ry with hlt | hge
      · apply (hsafe rx ry hlt (by omega)).2.1
        rw [getD_default (by omega) 0 8, getD_default (by omega) 0 8, hpx', hpy']
        omega
      · apply (hsafe ry rx (by omega) (by omega)).2.1
        rw [getD_default (by omega) 0 8, getD_default (by omega) 0 8, hpy', hpx']
        omega
    · obtain ⟨rx, cx, hrx, hcx, rfl, hkx⟩ := mem_npDiag_rvnum.1 hx
      obtain ⟨ry, cy, hry, hcy, rfl, hky⟩ := mem_npDiag_rvnum.1 hy
      have hpx' : l.getD rx 8 = cx := by
        have h0 : fOf (asgOf l) (rx * 8 + cx) = true := hpx
        rwa [asgOf_apply l hrx hcx, beq_iff_eq] at h0
      have hpy' : l.getD ry 8 = cy := by
        have h0 : fOf (asgOf l) (ry * 8 + cy) = true := hpy
        rwa [asgOf_apply l hry hcy, beq_iff_eq] at h0
      have hrne : rx ≠ ry := by
        intro h
        apply hxy
        have hcxy : cx = cy := by omega
        rw [h, hcxy]
      rcases Nat.lt_or_ge rx ry with hlt | hge
      · apply (hsafe rx ry hlt (by omega)).2.2
        rw [getD_default (by omega) 0 8, getD_default (by omega) 0 8, hpx', hpy']
        omega
      · apply (hsafe ry rx (by omega) (by omega)).2.2
        rw [getD_default (by omega) 0 8, getD_default (by omega) 0 8, hpy', hpx']
        omega

theorem asgOf_colsOf {a : Fin 64 → Bool}
    (ha : satisfiesModel (fOf a) (buildModel 8 8) = true) : asgOf (colsOf a) = a := by
  rw [satisfiesModel_iff] at ha
  obtain ⟨htot, hcol, hrow, _⟩ := ha
  have hone := rows_exactly_one htot hrow
  funext v
  have hv : (v : Nat) < 64 := v.isLt
  have hr8 : (v : Nat) / 8 < 8 := by omega
  have hc8 : (v : Nat) % 8 < 8 := by omega
  obtain ⟨hci, hfi, hui⟩ := row_unique (hone _ hr8)
  have hveq : (v : Nat) = (v : Nat) / 8 * 8 + (v : Nat) % 8 := by omega
  have hfv : fOf a ((v : Nat) / 8 * 8 + (v : Nat) % 8) = a v := by
    have h0 : fOf a ((v : Nat)) = a v := by rw [fOf, dif_pos hv]
    rw [← hveq]
    exact h0
  have hlhs : asgOf (colsOf a) v = ((colsOf a).getD ((v : Nat) / 8) 8 == (v : Nat) % 8) := rfl
  rw [hlhs, colsOf_getD hr8 8, ← hfv]
  cases hfc : fOf a ((v : Nat) / 8 * 8 + (v : Nat) % 8) with
  | true =>
    have hcc := hui _ hc8 hfc
    rw [← hcc]
    simp
  | false =>
    have hne : colAt (fOf a) ((v : Nat) / 8) ≠ (v : Nat) % 8 := by
      intro h
      rw [← h] at hfc
      rw [hfi] at hfc
      exact Bool.noConfusion hfc
    simp [hne]

theorem colsOf_asgOf {l : List Nat} (hl : l ∈ solutions8) : colsOf (asgOf l) = l := by
  rw [mem_solutions8] at hl
  obtain ⟨hlen, hmem, _⟩ := hl
  apply List.ext_getElem (by simp [colsOf, hlen])
  intro i h1 h2
  simp only [colsOf, List.getElem_map, List.getElem_range]
  have hi8 : i < 8 := by simpa [colsOf] using h1
  rw [colAt]
  have hfe : (List.range 8).filter (fun c => fOf (asgOf l) (i * 8 + c)) = [l.getD i 8] := by
    rw [List.filter_congr (fun c hc => asgOf_apply l hi8 (List.mem_range.1 hc))]
    refine filter_beq_range (hmem _ ?_)
    rw [List.getD_eq_getElem _ _ (by omega)]
    exact List.getElem_mem _
  rw [hfe, List.headD_cons, List.getD_eq_getElem _ _ (by omega)]

set_option maxRecDepth 4000 in
theorem feasibleSet_card : feasibleSet.card = 92 := by
  have hbij : feasibleSet.card = solutions8.toFinset.card := by
    apply Finset.card_nbij' (fun a => colsOf a) (fun l => asgOf l)
    · intro a ha
      rw [feasibleSet, Finset.mem_filter] at ha
      rw [List.mem_toFinset]
      exact colsOf_mem_solutions8 ha.2
    · intro l hl
      rw [List.mem_toFinset] at hl
      rw [feasibleSet, Finset.mem_filter]
      exact ⟨Finset.mem_univ _, asgOf_mem_feasible hl⟩
    · intro a ha
      rw [feasibleSet, Finset.mem_filter] at ha
      exact asgOf_colsOf ha.2
    · intro l hl
      rw [List.mem_toFinset] at hl
      exact colsOf_asgOf hl
  rw [hbij, List.toFinset_card_of_nodup solutions8_nodup, solutions8_length]

/-! ### Indexing the variable list, and label facts -/

theorem sq_lt {N r c : Nat} (hr : r < N) (hc : c < N) : r * N + c < N * N := by
  calc r * N + c < r * N + N := by omega
    _ = (r + 1) * N := by ring
    _ ≤ N * N := Nat.mul_le_mul_right N (by omega)

theorem grid_div {r c n : Nat} (hc : c < n) : (r * n + c) / n = r := by
  rw [Nat.mul_comm r n, Nat.mul_add_div (by omega), Nat.div_eq_of_lt hc, Nat.add_zero]

theorem grid_mod {r c n : Nat} (hc : c < n) : (r * n + c) % n = c := by
  rw [Nat.mul_comm r n, Nat.mul_add_mod, Nat.mod_eq_of_lt hc]

theorem variablesList_getD {N r c : Nat} (hr : r < N) (hc : c < N) :
    (variablesList N).getD (r * N + c) "" = varname r c := by
  rw [variablesList, flatMap_grid]
  rw [List.getD_eq_getElem _ _ (by simpa using sq_lt hr hc)]
  simp only [List.getElem_map, List.getElem_range]
  rw [grid_div hc, grid_mod hc]

theorem repr_data (n : Nat) : (Nat.repr n).data = decDigits n := by
  show Nat.toDigits 10 n = decDigits n
  exact toDigits_eq_decDigits n

theorem repr_data_injective {m n : Nat} (h : (Nat.repr m).data = (Nat.repr n).data) : m = n := by
  rw [repr_data, repr_data] at h
  have hr := congrArg decRead h
  rwa [decRead_decDigits, decRead_decDigits] at hr

/-- Numerals framed by a fixed affix pair give injective labels. -/
theorem affix_inj (pre post : String) :
    Function.Injective (fun n : Nat => pre ++ Nat.repr n ++ post) := by
  intro m n h
  have hd := congrArg String.data h
  simp only [String.data_append] at hd
  exact repr_data_injective (List.append_cancel_left (List.append_cancel_right hd))

theorem head_label_col (c : Nat) :
    ("col_" ++ Nat.repr c ++ "_total").data.head? = some 'c' := by
  rw [String.data_append]; rfl

theorem head_label_row (r : Nat) :
    ("row_" ++ Nat.repr r ++ "_total").data.head? = some 'r' := by
  rw [String.data_append]; rfl

theorem head_label_diag (i : Nat) :
    ("diag_" ++ Nat.repr i ++ "_total").data.head? = some 'd' := by
  rw [String.data_append]; rfl

theorem label_head_ne {s t : String} {x y : Char}
    (hs : s.data.head? = some x) (ht : t.data.head? = some y) (hxy : x ≠ y) : s ≠ t := by
  intro h
  rw [h, ht] at hs
  exact hxy (Option.some.inj hs).symm

/-- The labels of the built model, family by family. -/
theorem labels_eq (N NQ : Nat) :
    (buildModel N NQ).constraints.map (fun ct => ct.label) =
      "board_total" ::
        ((List.range N).map (fun c => "col_" ++ Nat.repr c ++ "_total") ++
          (List.range N).map (fun r => "row_" ++ Nat.repr r ++ "_total") ++
          (List.range (diags N).length).map
            (fun i => "diag_" ++ Nat.repr i ++ "_total")) := by
  rw [buildModel]
  simp only [List.map_cons, List.map_append, List.map_map]
  congr 1
  congr 1
  rw [show ((fun ct : Constraint => ct.label) ∘ fun p : Nat × List Nat =>
      diagConstraint p.1 p.2) =
    (fun i => "diag_" ++ Nat.repr i ++ "_total") ∘ Prod.fst from rfl]
  rw [← List.map_map, List.enum_map_fst]

theorem labels_nodup (N NQ : Nat) :
    ((buildModel N NQ).constraints.map (fun ct => ct.label)).Nodup := by
  rw [labels_eq, List.nodup_cons]
  constructor
  · intro hmem
    rcases List.mem_append.1 hmem with h | h
    · rcases List.mem_append.1 h with h' | h'
      · rcases List.mem_map.1 h' with ⟨c, _, heq⟩
        exact label_head_ne (head_label_col c) (by rfl) (by decide) heq
      · rcases List.mem_map.1 h' with ⟨r, _, heq⟩
        exact label_head_ne (head_label_row r) (by rfl) (by decide) heq
    · rcases List.mem_map.1 h with ⟨i, _, heq⟩
      exact label_head_ne (head_label_diag i) (by rfl) (by decide) heq
  · rw [List.nodup_append]
    refine ⟨?_, List.Nodup.map (affix_inj "diag_" "_total") (List.nodup_range _), ?_⟩
    · rw [List.nodup_append]
      refine ⟨List.Nodup.map (affix_inj "col_" "_total") (List.nodup_range N),
        List.Nodup.map (affix_inj "row_" "_total") (List.nodup_range N), ?_⟩
      intro a ha hb
      rcases List.mem_map.1 ha with ⟨c, _, rfl⟩
      rcases List.mem_map.1 hb with ⟨r, _, heq⟩
      exact label_head_ne (head_label_row r) (head_label_col c) (by decide) heq
    · intro a ha hb
      rcases List.mem_map.1 hb with ⟨i, _, heq⟩
      rcases List.mem_append.1 ha with h' | h'
      · rcases List.mem_map.1 h' with ⟨c, _, rfl⟩
        exact label_head_ne (head_label_diag i) (head_label_col c) (by decide) heq
      · rcases List.mem_map.1 h' with ⟨r, _, rfl⟩
        exact label_head_ne (head_label_diag i) (head_label_row r) (by decide) heq

/-! ### Lengths of diagonal groups, and how many groups hold a square -/

theorem two_le_length_of_mem_diags {N : Nat} {d : List Nat} (hN : 2 ≤ N)
    (hd : d ∈ diags N) : 2 ≤ d.length := by
  rcases mem_diags.1 hd with ⟨k, hk, rfl | rfl⟩
  · rw [mem_pyRange] at hk
    rcases Int.lt_or_le k 0 with hneg | hpos
    · have h1 : ((-k).toNat * N + 0) ∈ npDiag (vnum N) k :=
        mem_npDiag_vnum.2 ⟨(-k).toNat, 0, by omega, by omega, rfl, by omega⟩
      have h2 : (((-k).toNat + 1) * N + 1) ∈ npDiag (vnum N) k :=
        mem_npDiag_vnum.2 ⟨(-k).toNat + 1, 1, by omega, by omega, rfl, by omega⟩
      refine two_le_length_of_two_mem h1 h2 ?_
      have := sq_lt (show (-k).toNat < N by omega) (show 0 < N by omega)
      intro hcon
      have hlt : (-k).toNat * N < ((-k).toNat + 1) * N := by
        have : 0 < N := by omega
        calc (-k).toNat * N < (-k).toNat * N + N := by omega
          _ = ((-k).toNat + 1) * N := by ring
      omega
    · have h1 : (0 * N + k.toNat) ∈ npDiag (vnum N) k :=
        mem_npDiag_vnum.2 ⟨0, k.toNat, by omega, by omega, rfl, by omega⟩
      have h2 : (1 * N + (k.toNat + 1)) ∈ npDiag (vnum N) k :=
        mem_npDiag_vnum.2 ⟨1, k.toNat + 1, by omega, by omega, rfl, by omega⟩
      refine two_le_length_of_two_mem h1 h2 (by omega)
  · rw [mem_pyRange] at hk
    rcases Int.le_or_lt ((N : Int) - 1 - k) ((N : Int) - 1) with hsm | hbg
    · have h1 : (0 * N + ((N : Int) - 1 - k).toNat) ∈ npDiag (rvnum N) k :=
        mem_npDiag_rvnum.2 ⟨0, ((N : Int) - 1 - k).toNat, by omega, by omega, rfl, by omega⟩
      have h2 : (1 * N + (((N : Int) - 1 - k).toNat - 1)) ∈ npDiag (rvnum N) k :=
        mem_npDiag_rvnum.2 ⟨1, ((N : Int) - 1 - k).toNat - 1, by omega, by omega, rfl, by omega⟩
      refine two_le_length_of_two_mem h1 h2 (by omega)
    · have h1 : ((((N : Int) - 1 - k).toNat - (N - 1)) * N + (N - 1)) ∈ npDiag (rvnum N) k :=
        mem_npDiag_rvnum.2 ⟨((N : Int) - 1 - k).toNat - (N - 1), N - 1, by omega, by omega,
          rfl, by omega⟩
      have h2 : (((((N : Int) - 1 - k).toNat - (N - 1)) + 1) * N + (N - 2)) ∈
          npDiag (rvnum N) k :=
        mem_npDiag_rvnum.2 ⟨(((N : Int) - 1 - k).toNat - (N - 1)) + 1, N - 2, by omega,
          by omega, rfl, by omega⟩
      refine two_le_length_of_two_mem h1 h2 ?_
      intro hcon
      have hstep : ((((N : Int) - 1 - k).toNat - (N - 1)) + 1) * N =
          (((N : Int) - 1 - k).toNat - (N - 1)) * N + N := by ring
      omega

theorem int_countP_pyRange (k0 lo hi : Int) :
    (pyRange lo hi).countP (fun k => decide (k = k0)) =
      if lo ≤ k0 ∧ k0 < hi then 1 else 0 := by
  rw [List.countP_eq_length_filter, List.filter_eq]
  by_cases hmem : k0 ∈ pyRange lo hi
  · rw [List.count_eq_one_of_mem (pyRange_nodup lo hi) hmem,
      if_pos (mem_pyRange.1 hmem)]
    rfl
  · rw [List.count_eq_zero_of_not_mem hmem, if_neg (fun hc => hmem (mem_pyRange.2 hc))]
    rfl

theorem square_inj {N r c r' c' : Nat} (hc : c < N) (hc' : c' < N)
    (heq : r * N + c = r' * N + c') : r = r' ∧ c = c' := by
  constructor
  · rw [← grid_div (r := r) hc, heq, grid_div hc']
  · rw [← grid_mod (r := r) hc, heq, grid_mod hc']

theorem mem_npDiag_vnum_uniq {N r c : Nat} (hr : r < N) (hc : c < N) (k : Int) :
    ((r * N + c) ∈ npDiag (vnum N) k) ↔ k = (c : Int) - (r : Int) := by
  rw [mem_npDiag_vnum]
  constructor
  · rintro ⟨r', c', hr', hc', heq, hk⟩
    obtain ⟨rfl, rfl⟩ := square_inj hc hc' heq
    omega
  · rintro rfl
    exact ⟨r, c, hr, hc, rfl, rfl⟩

theorem mem_npDiag_rvnum_uniq {N r c : Nat} (hr : r < N) (hc : c < N) (k : Int) :
    ((r * N + c) ∈ npDiag (rvnum N) k) ↔ k = (N : Int) - 1 - ((r : Int) + (c : Int)) := by
  rw [mem_npDiag_rvnum]
  constructor
  · rintro ⟨r', c', hr', hc', heq, hk⟩
    obtain ⟨rfl, rfl⟩ := square_inj hc hc' heq
    omega
  · rintro rfl
    exact ⟨r, c, hr, hc, rfl, by omega⟩

/-- How many groups of `diags N` contain the square `(r, c)`: one per
orientation whose offset lies in the enumerated offset window. -/
theorem diags_countP (N r c : Nat) (hr : r < N) (hc : c < N) :
    (diags N).countP (fun d => decide ((r * N + c) ∈ d)) =
      (if -((N : Int) - 2) ≤ (c : Int) - (r : Int) ∧ (c : Int) - (r : Int) < (N : Int) - 1
        then 1 else 0) +
      (if -((N : Int) - 2) ≤ (N : Int) - 1 - ((r : Int) + (c : Int)) ∧
          (N : Int) - 1 - ((r : Int) + (c : Int)) < (N : Int) - 1
        then 1 else 0) := by
  have hsplit : diags N =
      (pyRange (-((N : Int) - 2)) ((N : Int) - 1)).map (npDiag (vnum N)) ++
        (pyRange (-((N : Int) - 2)) ((N : Int) - 1)).map (npDiag (rvnum N)) := by
    rw [diags]
    simp
  rw [hsplit, List.countP_append, List.countP_map, List.countP_map]
  have hmain : ∀ k ∈ pyRange (-((N : Int) - 2)) ((N : Int) - 1),
      ((fun d => decide ((r * N + c) ∈ d)) ∘ npDiag (vnum N)) k =
        (fun k : Int => decide (k = (c : Int) - (r : Int))) k := by
    intro k _
    simp only [Function.comp_apply]
    rw [decide_eq_decide]
    exact mem_npDiag_vnum_uniq hr hc k
  have hanti : ∀ k ∈ pyRange (-((N : Int) - 2)) ((N : Int) - 1),
      ((fun d => decide ((r * N + c) ∈ d)) ∘ npDiag (rvnum N)) k =
        (fun k : Int => decide (k = (N : Int) - 1 - ((r : Int) + (c : Int)))) k := by
    intro k _
    simp only [Function.comp_apply]
    rw [decide_eq_decide]
    exact mem_npDiag_rvnum_uniq hr hc k
  rw [countP_congr_fn hmain, countP_congr_fn hanti,
    int_countP_pyRange, int_countP_pyRange]

theorem flat4_getD_off (N : Nat) :
    ∀ (m : Nat → Char) (c : Nat), c < N → ∀ j, j < 4 →
      (((List.range N).map (fun c => ['|', '.', m c, '.'])).flatten ++ ['|']).getD
          (4 * c + j) ' ' = ['|', '.', m c, '.'].getD j ' ' := by
  induction N with
  | zero => intro m c hc; omega
  | succ n ih =>
    intro m c hc j hj
    rw [List.range_succ_eq_map, List.map_cons, List.flatten_cons, List.map_map,
      List.append_assoc]
    cases c with
    | zero => interval_cases j <;> rfl
    | succ c' =>
      have hidx : 4 * (c' + 1) + j = (4 * c' + j) + 1 + 1 + 1 + 1 := by ring
      rw [hidx]
      simp only [List.cons_append, List.getD_cons_succ, List.nil_append]
      exact ih (fun c => m (c + 1)) c' (by omega) j hj

/-! ### The claims -/

/-- **C4.** For every board size and queen count with `NQ > N*N`, no 0/1
assignment satisfies the model: the `board_total` equality constraint is
already violated by every assignment, so the whole model is infeasible. -/
theorem C4_overfull_unsat (N NQ : Nat) (hN : 1 ≤ N) (hNQ : N * N < NQ) (f : Nat → Bool) :
    constrHolds f (boardTotal N NQ) = false ∧
    satisfiesModel f (buildModel N NQ) = false := by
  have hb : constrHolds f (boardTotal N NQ) = false := by
    show ((lhsSum f (boardTotal N NQ).vars == NQ) : Bool) = false
    rw [beq_eq_false_iff_ne]
    show lhsSum f ((List.range N).flatMap
      (fun r => (List.range N).map (fun c => r * N + c))) ≠ NQ
    rw [range_grid, lhsSum_eq_countP]
    have hle : (List.range (N * N)).countP f ≤ N * N := by
      calc (List.range (N * N)).countP f ≤ (List.range (N * N)).length :=
        List.countP_le_length f
        _ = N * N := List.length_range _
    omega
  refine ⟨hb, ?_⟩
  rw [satisfiesModel, buildModel, List.all_cons, hb, Bool.false_and]

theorem C4_witness :
    1 ≤ 1 ∧ 1 * 1 < 2 ∧
      (constrHolds (fun _ => false) (boardTotal 1 2) = false ∧
        satisfiesModel (fun _ => false) (buildModel 1 2) = false) :=
  ⟨by decide, by decide, C4_overfull_unsat 1 2 (by decide) (by decide) (fun _ => false)⟩

/-- **C5.** The result decoder always prints the feasible count first; with
feasible samples present it keeps exactly the first `min(10, count)` feasible
samples in the solver's order (a take of the filtered list, never re-ranked)
and renders only those; with none it prints the warning and renders the first
10 raw samples.  It is a total function, so it raises no error of its own. -/
theorem C5_decoder (N : Nat) (raw : List Sample) :
    (renderResults N raw).head? =
        some (Nat.repr (feasibleOf raw).length ++ " Feasible samples") ∧
    (0 < (feasibleOf raw).length →
      bestSamples raw = (feasibleOf raw).take (min 10 (feasibleOf raw).length) ∧
      (bestSamples raw).length = min 10 (feasibleOf raw).length ∧
      (∀ t ∈ bestSamples raw, t.is_feasible = true) ∧
      (bestSamples raw).Sublist (feasibleOf raw)) ∧
    ((feasibleOf raw).length = 0 →
      "Warning: Did not find feasible solution" ∈ renderResults N raw ∧
      bestSamples raw = raw.take 10) ∧
    renderResults N raw =
      (Nat.repr (feasibleOf raw).length ++ " Feasible samples") ::
        ((if 0 < (feasibleOf raw).length then []
          else ["Warning: Did not find feasible solution"]) ++
          (" " ::
            "==============================BEST SAMPLE SET==============================" ::
            (bestSamples raw).enum.flatMap (fun p => sampleBlock N p.1 p.2.assign))) := by
  refine ⟨rfl, ?_, ?_, rfl⟩
  · intro hpos
    have hbs : bestSamples raw = (feasibleOf raw).take (min 10 (feasibleOf raw).length) := by
      rw [bestSamples, if_pos hpos]
    refine ⟨hbs, ?_, ?_, ?_⟩
    · rw [hbs, List.length_take]
      omega
    · intro t ht
      rw [hbs] at ht
      have hmem : t ∈ feasibleOf raw :=
        (List.take_sublist _ _).mem ht
      exact (List.mem_filter.1 hmem).2
    · rw [hbs]
      exact List.take_sublist _ _
  · intro hzero
    refine ⟨?_, by rw [bestSamples, if_neg (by omega)]⟩
    rw [renderResults, if_neg (by omega)]
    exact List.mem_cons_of_mem _ (List.mem_append_left _ (List.mem_singleton_self _))

theorem C5_witness :
    (renderResults 1 []).head? =
        some (Nat.repr (feasibleOf []).length ++ " Feasible samples") ∧
    (0 < (feasibleOf []).length →
      bestSamples [] = (feasibleOf []).take (min 10 (feasibleOf []).length) ∧
      (bestSamples []).length = min 10 (feasibleOf []).length ∧
      (∀ t ∈ bestSamples [], t.is_feasible = true) ∧
      (bestSamples []).Sublist (feasibleOf [])) ∧
    ((feasibleOf []).length = 0 →
      "Warning: Did not find feasible solution" ∈ renderResults 1 [] ∧
      bestSamples [] = List.take 10 []) ∧
    renderResults 1 [] =
      (Nat.repr (feasibleOf []).length ++ " Feasible samples") ::
        ((if 0 < (feasibleOf []).length then []
          else ["Warning: Did not find feasible solution"]) ++
          (" " ::
            "==============================BEST SAMPLE SET==============================" ::
            (bestSamples []).enum.flatMap (fun p => sampleBlock 1 p.1 p.2.assign))) :=
  C5_decoder 1 []

/-- **C6.** Each rendered row prints the squares in row-major order in the
fixed `|.X.` per-square format, the queen marker `'W'` standing exactly when
the square's variable value is `> 0.0`, the line closed by a final `'|'`,
with the header and separator lines framing each board block. -/
theorem C6_format (N : Nat) (s : String → ℚ) (r c i : Nat) (hr : r < N) (hc : c < N) :
    ((renderRow N s r).data.getD (4 * c) ' ' = '|' ∧
     (renderRow N s r).data.getD (4 * c + 1) ' ' = '.' ∧
     (renderRow N s r).data.getD (4 * c + 2) ' ' =
       (if 0 < s (varname r c) then 'W' else '.') ∧
     (renderRow N s r).data.getD (4 * c + 3) ' ' = '.') ∧
    (renderRow N s r).data.length = 4 * N + 1 ∧
    (renderRow N s r).data.getD (4 * N) ' ' = '|' ∧
    boardLines N s = (List.range N).map (renderRow N s) ∧
    (sampleBlock N i s).head? =
      some ("Result " ++ Nat.repr (i + 1) ++ "    =====================") ∧
    (sampleBlock N i s).getLast? = some "=================================" := by
  have hoff : ∀ j, j < 4 → (renderRow N s r).data.getD (4 * c + j) ' ' =
      ['|', '.', queenChar s r c, '.'].getD j ' ' := by
    intro j hj
    exact flat4_getD_off N (queenChar s r) c hc j hj
  refine ⟨⟨?_, ?_, ?_, ?_⟩, rowChars_length N s r, rowChars_last N s r, rfl, rfl, ?_⟩
  · have h0 := hoff 0 (by omega)
    rw [Nat.add_zero] at h0
    rw [h0]
    rfl
  · rw [hoff 1 (by omega)]
    rfl
  · rw [hoff 2 (by omega)]
    rfl
  · rw [hoff 3 (by omega)]
    rfl
  · rw [sampleBlock,
      show ("Result " ++ Nat.repr (i + 1) ++ "    =====================") ::
          (boardLines N s ++ ["================================="]) =
        (("Result " ++ Nat.repr (i + 1) ++ "    =====================") ::
          boardLines N s) ++ ["================================="] from rfl,
      List.getLast?_concat]

theorem C6_witness :
    0 < 1 ∧
    (((renderRow 1 (fun _ => 0) 0).data.getD (4 * 0) ' ' = '|' ∧
      (renderRow 1 (fun _ => 0) 0).data.getD (4 * 0 + 1) ' ' = '.' ∧
      (renderRow 1 (fun _ => 0) 0).data.getD (4 * 0 + 2) ' ' =
        (if 0 < (fun _ : String => (0 : ℚ)) (varname 0 0) then 'W' else '.') ∧
      (renderRow 1 (fun _ => 0) 0).data.getD (4 * 0 + 3) ' ' = '.') ∧
    (renderRow 1 (fun _ => 0) 0).data.length = 4 * 1 + 1 ∧
    (renderRow 1 (fun _ => 0) 0).data.getD (4 * 1) ' ' = '|' ∧
    boardLines 1 (fun _ => 0) = (List.range 1).map (renderRow 1 (fun _ => 0)) ∧
    (sampleBlock 1 0 (fun _ => 0)).head? =
      some ("Result " ++ Nat.repr (0 + 1) ++ "    =====================") ∧
    (sampleBlock 1 0 (fun _ => 0)).getLast? =
      some "=================================") :=
  ⟨by decide, C6_format 1 (fun _ => 0) 0 0 0 (by decide) (by decide)⟩

/-- **C7.** For an assignment that is a valid N-queens placement (0/1 values,
`NQ` ones in total, at most one per row, column and diagonal group), the
rendered board carries exactly `NQ` queen markers, at most one per rendered
row and at most one per rendered column. -/
theorem C7_roundtrip (N NQ : Nat) (s : String → ℚ)
    (h01 : ∀ r < N, ∀ c < N, s (varname r c) = 0 ∨ s (varname r c) = 1)
    (htot : ((List.range N).map
        (fun r => (List.range N).countP (fun c => decide (s (varname r c) = 1)))).sum = NQ)
    (hrow : ∀ r < N, (List.range N).countP (fun c => decide (s (varname r c) = 1)) ≤ 1)
    (hcol : ∀ c < N, (List.range N).countP (fun r => decide (s (varname r c) = 1)) ≤ 1)
    (hdiag : ∀ d ∈ diags N,
      d.countP (fun v => decide (s (varname (v / N) (v % N)) = 1)) ≤ 1) :
    ((boardLines N s).map (fun ln => ln.data.count 'W')).sum = NQ ∧
    (∀ r < N, (renderRow N s r).data.count 'W' ≤ 1) ∧
    (∀ c < N, (List.range N).countP
      (fun r => (renderRow N s r).data.getD (4 * c + 2) ' ' == 'W') ≤ 1) := by
  have hconv : ∀ r, r < N → ∀ c, c < N →
      (decide (0 < s (varname r c))) = decide (s (varname r c) = 1) := by
    intro r hr c hc
    rcases h01 r hr c hc with h | h <;> rw [h] <;> decide
  have hrows : ∀ r, r < N → (renderRow N s r).data.count 'W' =
      (List.range N).countP (fun c => decide (s (varname r c) = 1)) := by
    intro r hr
    show (rowChars N s r).count 'W' = _
    rw [rowChars_count]
    exact countP_congr_fn (fun c hcm => hconv r hr c (List.mem_range.1 hcm))
  refine ⟨?_, ?_, ?_⟩
  · rw [boardLines, List.map_map]
    have hcg : (List.range N).map ((fun ln : String => ln.data.count 'W') ∘ renderRow N s) =
        (List.range N).map
          (fun r => (List.range N).countP (fun c => decide (s (varname r c) = 1))) :=
      List.map_congr_left (fun r hrm => hrows r (List.mem_range.1 hrm))
    rw [hcg, htot]
  · intro r hr
    rw [hrows r hr]
    exact hrow r hr
  · intro c hc
    have hpt : ∀ r ∈ List.range N,
        ((renderRow N s r).data.getD (4 * c + 2) ' ' == 'W') =
          decide (s (varname r c) = 1) := by
      intro r hrm
      have hg : (renderRow N s r).data.getD (4 * c + 2) ' ' = queenChar s r c :=
        rowChars_getD N s r c hc
      rw [hg, queenChar]
      by_cases h : 0 < s (varname r c)
      · rcases h01 r (List.mem_range.1 hrm) c hc with h0 | h1
        · rw [h0] at h
          exact absurd h (by norm_num)
        · rw [if_pos h, h1]
          decide
      · rcases h01 r (List.mem_range.1 hrm) c hc with h0 | h1
        · rw [if_neg h, h0]
          decide
        · rw [h1] at h
          exact absurd (by norm_num : (0 : ℚ) < 1) h
    rw [countP_congr_fn hpt]
    exact hcol c hc

theorem C7_witness :
    (∀ r < 1, ∀ c < 1, (fun _ : String => (1 : ℚ)) (varname r c) = 0 ∨
      (fun _ : String => (1 : ℚ)) (varname r c) = 1) ∧
    ((List.range 1).map (fun r => (List.range 1).countP
      (fun c => decide ((fun _ : String => (1 : ℚ)) (varname r c) = 1)))).sum = 1 ∧
    (∀ r < 1, (List.range 1).countP
      (fun c => decide ((fun _ : String => (1 : ℚ)) (varname r c) = 1)) ≤ 1) ∧
    (∀ c < 1, (List.range 1).countP
      (fun r => decide ((fun _ : String => (1 : ℚ)) (varname r c) = 1)) ≤ 1) ∧
    (∀ d ∈ diags 1, d.countP
      (fun v => decide ((fun _ : String => (1 : ℚ)) (varname (v / 1) (v % 1)) = 1)) ≤ 1) ∧
    (((boardLines 1 (fun _ => 1)).map (fun ln => ln.data.count 'W')).sum = 1 ∧
    (∀ r < 1, (renderRow 1 (fun _ => 1) r).data.count 'W' ≤ 1) ∧
    (∀ c < 1, (List.range 1).countP
      (fun r => (renderRow 1 (fun _ => 1) r).data.getD (4 * c + 2) ' ' == 'W') ≤ 1)) :=
  ⟨by decide, by decide, by decide, by decide, by decide,
    C7_roundtrip 1 1 (fun _ => 1) (by decide) (by decide) (by decide) (by decide) (by decide)⟩

/-- **C8.** For `N = 1` the offset range of the diagonal enumerator is empty,
so there are no diagonal groups and no diagonal constraints: the model is
exactly the total-count equality, one column constraint, one row constraint. -/
theorem C8_board_one (NQ : Nat) :
    diags 1 = [] ∧
    (buildModel 1 NQ).constraints =
      [boardTotal 1 NQ, colConstraint 1 0, rowConstraint 1 0] ∧
    (buildModel 1 NQ).constraints.countP
      (fun ct => ct.label.data.head? == some 'd') = 0 ∧
    (buildModel 1 NQ).constraints.length = 3 := by
  exact ⟨rfl, rfl, rfl, rfl⟩

/-- **C9.** Building the model is a pure function of `(N, NQ)`: two builds
yield structurally identical models (same variable identities, constraint
count, labels, left-hand sides, comparison senses, bounds and objective),
independent of anything else in the run. -/
theorem C9_deterministic (N NQ : Nat) (M₁ M₂ : Model) (V₁ V₂ : List String)
    (h₁ : M₁ = buildModel N NQ) (h₂ : M₂ = buildModel N NQ)
    (hv₁ : V₁ = vlabels N) (hv₂ : V₂ = vlabels N) :
    V₁ = V₂ ∧
    M₁.constraints.length = M₂.constraints.length ∧
    M₁.constraints.map (fun ct => ct.label) = M₂.constraints.map (fun ct => ct.label) ∧
    M₁.constraints.map (fun ct => ct.vars) = M₂.constraints.map (fun ct => ct.vars) ∧
    M₁.constraints.map (fun ct => ct.cmp) = M₂.constraints.map (fun ct => ct.cmp) ∧
    M₁.constraints.map (fun ct => ct.bound) = M₂.constraints.map (fun ct => ct.bound) ∧
    M₁.objective = M₂.objective ∧ M₁ = M₂ := by
  subst h₁ h₂ hv₁ hv₂
  exact ⟨rfl, rfl, rfl, rfl, rfl, rfl, rfl, rfl⟩

theorem C9_witness :
    vlabels 2 = vlabels 2 ∧
    (buildModel 2 1).constraints.length = (buildModel 2 1).constraints.length ∧
    (buildModel 2 1).constraints.map (fun ct => ct.label) =
      (buildModel 2 1).constraints.map (fun ct => ct.label) ∧
    (buildModel 2 1).constraints.map (fun ct => ct.vars) =
      (buildModel 2 1).constraints.map (fun ct => ct.vars) ∧
    (buildModel 2 1).constraints.map (fun ct => ct.cmp) =
      (buildModel 2 1).constraints.map (fun ct => ct.cmp) ∧
    (buildModel 2 1).constraints.map (fun ct => ct.bound) =
      (buildModel 2 1).constraints.map (fun ct => ct.bound) ∧
    (buildModel 2 1).objective = (buildModel 2 1).objective ∧
    buildModel 2 1 = buildModel 2 1 :=
  C9_deterministic 2 1 (buildModel 2 1) (buildModel 2 1) (vlabels 2) (vlabels 2)
    rfl rfl rfl rfl

/-- **C1.** The built model has no objective and exactly these constraints:
one equality (`board_total`, bound `NQ`, summing every square variable once),
`N` column `≤ 1` constraints, `N` row `≤ 1` constraints, and one `≤ 1`
constraint per enumerated diagonal group — nothing else. -/
theorem C1_model_structure (N NQ : Nat) (hN : 1 ≤ N) :
    (buildModel N NQ).objective = none ∧
    (buildModel N NQ).constraints.length = 1 + N + N + (diags N).length ∧
    (buildModel N NQ).constraints.countP (fun ct => decide (ct.cmp = Cmp.eq)) = 1 ∧
    (∀ ct ∈ (buildModel N NQ).constraints, ct.cmp = Cmp.eq →
      ct.label = "board_total" ∧ ct.bound = NQ ∧ ct.vars = List.range (N * N)) ∧
    (buildModel N NQ).constraints.countP
        (fun ct => ct.label.data.head? == some 'c') = N ∧
    (buildModel N NQ).constraints.countP
        (fun ct => ct.label.data.head? == some 'r') = N ∧
    (buildModel N NQ).constraints.countP
        (fun ct => ct.label.data.head? == some 'd') = (diags N).length ∧
    (∀ c < N, colConstraint N c ∈ (buildModel N NQ).constraints) ∧
    (∀ r < N, rowConstraint N r ∈ (buildModel N NQ).constraints) ∧
    (∀ i (h : i < (diags N).length),
      diagConstraint i ((diags N).get ⟨i, h⟩) ∈ (buildModel N NQ).constraints) ∧
    (∀ ct ∈ (buildModel N NQ).constraints,
      ct = boardTotal N NQ ∨ (∃ c < N, ct = colConstraint N c) ∨
        (∃ r < N, ct = rowConstraint N r) ∨
        (∃ i, ∃ h : i < (diags N).length, ct = diagConstraint i ((diags N).get ⟨i, h⟩))) ∧
    (∀ ct ∈ (buildModel N NQ).constraints, ct.cmp = Cmp.le → ct.bound = 1) := by
  have hconstr : (buildModel N NQ).constraints =
      boardTotal N NQ ::
        ((List.range N).map (colConstraint N) ++ (List.range N).map (rowConstraint N) ++
          (diags N).enum.map (fun p => diagConstraint p.1 p.2)) := rfl
  have hshape : ∀ ct ∈ (buildModel N NQ).constraints,
      ct = boardTotal N NQ ∨ (∃ c < N, ct = colConstraint N c) ∨
        (∃ r < N, ct = rowConstraint N r) ∨
        (∃ i, ∃ h : i < (diags N).length, ct = diagConstraint i ((diags N).get ⟨i, h⟩)) := by
    intro ct hct
    rw [hconstr] at hct
    rcases List.mem_cons.1 hct with rfl | hct'
    · exact Or.inl rfl
    rcases List.mem_append.1 hct' with hcr | hdg
    · rcases List.mem_append.1 hcr with hcol | hrow
      · rcases List.mem_map.1 hcol with ⟨c, hc, rfl⟩
        exact Or.inr (Or.inl ⟨c, List.mem_range.1 hc, rfl⟩)
      · rcases List.mem_map.1 hrow with ⟨r, hr, rfl⟩
        exact Or.inr (Or.inr (Or.inl ⟨r, List.mem_range.1 hr, rfl⟩))
    · rcases List.mem_map.1 hdg with ⟨p, hp, rfl⟩
      obtain ⟨hlen, hget⟩ := List.getElem?_eq_some.1 (List.mem_enum_iff_getElem?.1 hp)
      refine Or.inr (Or.inr (Or.inr ⟨p.1, hlen, ?_⟩))
      rw [List.get_eq_getElem, hget]
  refine ⟨rfl, ?_, ?_, ?_, ?_, ?_, ?_, ?_, ?_, ?_, hshape, ?_⟩
  · simp only [hconstr, List.length_cons, List.length_append, List.length_map,
      List.length_range, List.enum_length]
    omega
  · have hc0 : ((List.range N).map (colConstraint N)).countP
        (fun ct => decide (ct.cmp = Cmp.eq)) = 0 :=
      List.countP_eq_zero.2 (by
        intro a ha
        rcases List.mem_map.1 ha with ⟨c, _, rfl⟩
        simp [colConstraint])
    have hr0 : ((List.range N).map (rowConstraint N)).countP
        (fun ct => decide (ct.cmp = Cmp.eq)) = 0 :=
      List.countP_eq_zero.2 (by
        intro a ha
        rcases List.mem_map.1 ha with ⟨r, _, rfl⟩
        simp [rowConstraint])
    have hd0 : ((diags N).enum.map (fun p => diagConstraint p.1 p.2)).countP
        (fun ct => decide (ct.cmp = Cmp.eq)) = 0 :=
      List.countP_eq_zero.2 (by
        intro a ha
        rcases List.mem_map.1 ha with ⟨p, _, rfl⟩
        simp [diagConstraint])
    rw [hconstr, List.countP_cons, List.countP_append, List.countP_append, hc0, hr0, hd0]
    rfl
  · intro ct hct hcmp
    rcases hshape ct hct with rfl | ⟨c, _, rfl⟩ | ⟨r, _, rfl⟩ | ⟨i, h, rfl⟩
    · refine ⟨rfl, rfl, ?_⟩
      show (List.range N).flatMap (fun r => (List.range N).map (fun c => r * N + c)) =
        List.range (N * N)
      exact range_grid N N
    · exact absurd hcmp (by simp [colConstraint])
    · exact absurd hcmp (by simp [rowConstraint])
    · exact absurd hcmp (by simp [diagConstraint])
  · have hcN : ((List.range N).map (colConstraint N)).countP
        (fun ct => ct.label.data.head? == some 'c') = N := by
      rw [List.countP_eq_length.2, List.length_map, List.length_range]
      intro a ha
      rcases List.mem_map.1 ha with ⟨c, _, rfl⟩
      rw [show (colConstraint N c).label = "col_" ++ Nat.repr c ++ "_total" from rfl,
        head_label_col]
      rfl
    have hr0 : ((List.range N).map (rowConstraint N)).countP
        (fun ct => ct.label.data.head? == some 'c') = 0 :=
      List.countP_eq_zero.2 (by
        intro a ha
        rcases List.mem_map.1 ha with ⟨r, _, rfl⟩
        rw [show (rowConstraint N r).label = "row_" ++ Nat.repr r ++ "_total" from rfl,
          head_label_row]
        decide)
    have hd0 : ((diags N).enum.map (fun p => diagConstraint p.1 p.2)).countP
        (fun ct => ct.label.data.head? == some 'c') = 0 :=
      List.countP_eq_zero.2 (by
        intro a ha
        rcases List.mem_map.1 ha with ⟨p, _, rfl⟩
        rw [show (diagConstraint p.1 p.2).label = "diag_" ++ Nat.repr p.1 ++ "_total"
          from rfl, head_label_diag]
        decide)
    rw [hconstr, List.countP_cons, List.countP_append, List.countP_append, hcN, hr0, hd0,
      show ((boardTotal N NQ).label.data.head? == some 'c') = false from rfl]
    simp
  · have hc0 : ((List.range N).map (colConstraint N)).countP
        (fun ct => ct.label.data.head? == some 'r') = 0 :=
      List.countP_eq_zero.2 (by
        intro a ha
        rcases List.mem_map.1 ha with ⟨c, _, rfl⟩
        rw [show (colConstraint N c).label = "col_" ++ Nat.repr c ++ "_total" from rfl,
          head_label_col]
        decide)
    have hrN : ((List.range N).map (rowConstraint N)).countP
        (fun ct => ct.label.data.head? == some 'r') = N := by
      rw [List.countP_eq_length.2, List.length_map, List.length_range]
      intro a ha
      rcases List.mem_map.1 ha with ⟨r, _, rfl⟩
      rw [show (rowConstraint N r).label = "row_" ++ Nat.repr r ++ "_total" from rfl,
        head_label_row]
      rfl
    have hd0 : ((diags N).enum.map (fun p => diagConstraint p.1 p.2)).countP
        (fun ct => ct.label.data.head? == some 'r') = 0 :=
      List.countP_eq_zero.2 (by
        intro a ha
        rcases List.mem_map.1 ha with ⟨p, _, rfl⟩
        rw [show (diagConstraint p.1 p.2).label = "diag_" ++ Nat.repr p.1 ++ "_total"
          from rfl, head_label_diag]
        decide)
    rw [hconstr, List.countP_cons, List.countP_append, List.countP_append, hc0, hrN, hd0,
      show ((boardTotal N NQ).label.data.head? == some 'r') = false from rfl]
    simp
  · have hc0 : ((List.range N).map (colConstraint N)).countP
        (fun ct => ct.label.data.head? == some 'd') = 0 :=
      List.countP_eq_zero.2 (by
        intro a ha
        rcases List.mem_map.1 ha with ⟨c, _, rfl⟩
        rw [show (colConstraint N c).label = "col_" ++ Nat.repr c ++ "_total" from rfl,
          head_label_col]
        decide)
    have hr0 : ((List.range N).map (rowConstraint N)).countP
        (fun ct => ct.label.data.head? == some 'd') = 0 :=
      List.countP_eq_zero.2 (by
        intro a ha
        rcases List.mem_map.1 ha with ⟨r, _, rfl⟩
        rw [show (rowConstraint N r).label = "row_" ++ Nat.repr r ++ "_total" from rfl,
          head_label_row]
        decide)
    have hdN : ((diags N).enum.map (fun p => diagConstraint p.1 p.2)).countP
        (fun ct => ct.label.data.head? == some 'd') = (diags N).length := by
      rw [List.countP_eq_length.2, List.length_map, List.enum_length]
      intro a ha
      rcases List.mem_map.1 ha with ⟨p, _, rfl⟩
      rw [show (diagConstraint p.1 p.2).label = "diag_" ++ Nat.repr p.1 ++ "_total"
        from rfl, head_label_diag]
      rfl
    rw [hconstr, List.countP_cons, List.countP_append, List.countP_append, hc0, hr0, hdN,
      show ((boardTotal N NQ).label.data.head? == some 'd') = false from rfl]
    simp
  · intro c hc
    rw [hconstr]
    exact List.mem_cons_of_mem _ (List.mem_append_left _
      (List.mem_append_left _ (List.mem_map_of_mem _ (List.mem_range.2 hc))))
  · intro r hr
    rw [hconstr]
    exact List.mem_cons_of_mem _ (List.mem_append_left _
      (List.mem_append_right _ (List.mem_map_of_mem _ (List.mem_range.2 hr))))
  · intro i h
    rw [hconstr]
    refine List.mem_cons_of_mem _ (List.mem_append_right _ ?_)
    have hp : (i, (diags N).get ⟨i, h⟩) ∈ (diags N).enum := by
      rw [List.mem_enum_iff_getElem?]
      rw [List.get_eq_getElem]
      exact List.getElem?_eq_getElem h
    exact List.mem_map_of_mem _ hp
  · intro ct hct hle
    rcases hshape ct hct with rfl | ⟨c, _, rfl⟩ | ⟨r, _, rfl⟩ | ⟨i, h, rfl⟩
    · exact absurd hle (by simp [boardTotal])
    · rfl
    · rfl
    · rfl

theorem C1_witness :
    1 ≤ 2 ∧
    ((buildModel 2 1).objective = none ∧
    (buildModel 2 1).constraints.length = 1 + 2 + 2 + (diags 2).length ∧
    (buildModel 2 1).constraints.countP (fun ct => decide (ct.cmp = Cmp.eq)) = 1 ∧
    (∀ ct ∈ (buildModel 2 1).constraints, ct.cmp = Cmp.eq →
      ct.label = "board_total" ∧ ct.bound = 1 ∧ ct.vars = List.range (2 * 2)) ∧
    (buildModel 2 1).constraints.countP
        (fun ct => ct.label.data.head? == some 'c') = 2 ∧
    (buildModel 2 1).constraints.countP
        (fun ct => ct.label.data.head? == some 'r') = 2 ∧
    (buildModel 2 1).constraints.countP
        (fun ct => ct.label.data.head? == some 'd') = (diags 2).length ∧
    (∀ c < 2, colConstraint 2 c ∈ (buildModel 2 1).constraints) ∧
    (∀ r < 2, rowConstraint 2 r ∈ (buildModel 2 1).constraints) ∧
    (∀ i (h : i < (diags 2).length),
      diagConstraint i ((diags 2).get ⟨i, h⟩) ∈ (buildModel 2 1).constraints) ∧
    (∀ ct ∈ (buildModel 2 1).constraints,
      ct = boardTotal 2 1 ∨ (∃ c < 2, ct = colConstraint 2 c) ∨
        (∃ r < 2, ct = rowConstraint 2 r) ∨
        (∃ i, ∃ h : i < (diags 2).length, ct = diagConstraint i ((diags 2).get ⟨i, h⟩))) ∧
    (∀ ct ∈ (buildModel 2 1).constraints, ct.cmp = Cmp.le → ct.bound = 1)) :=
  ⟨by decide, C1_model_structure 2 1 (by decide)⟩

/-- **C2.** For `N ≥ 2` every enumerated diagonal group has length at least 2,
and a square `(r, c)` belongs to the group of offset `k` exactly when `k` is
its geometric offset (`c - r` for the `vnum` orientation, `N - 1 - (r + c)`
for the mirrored one); it lies in one group per orientation whose offset falls
in the enumerated window, hence in at most two groups in total. -/
theorem C2_diagonal_enumerator (N : Nat) (hN : 2 ≤ N) :
    (∀ d ∈ diags N, 2 ≤ d.length) ∧
    (∀ r c : Nat, r < N → c < N →
      (∀ k : Int, ((r * N + c) ∈ npDiag (vnum N) k ↔ k = (c : Int) - (r : Int))) ∧
      (∀ k : Int, ((r * N + c) ∈ npDiag (rvnum N) k ↔
        k = (N : Int) - 1 - ((r : Int) + (c : Int)))) ∧
      ((diags N).countP (fun d => decide ((r * N + c) ∈ d)) =
        (if -((N : Int) - 2) ≤ (c : Int) - (r : Int) ∧ (c : Int) - (r : Int) < (N : Int) - 1
          then 1 else 0) +
        (if -((N : Int) - 2) ≤ (N : Int) - 1 - ((r : Int) + (c : Int)) ∧
            (N : Int) - 1 - ((r : Int) + (c : Int)) < (N : Int) - 1
          then 1 else 0)) ∧
      (diags N).countP (fun d => decide ((r * N + c) ∈ d)) ≤ 2) := by
  refine ⟨fun d hd => two_le_length_of_mem_diags hN hd, ?_⟩
  intro r c hr hc
  refine ⟨fun k => mem_npDiag_vnum_uniq hr hc k,
    fun k => mem_npDiag_rvnum_uniq hr hc k, diags_countP N r c hr hc, ?_⟩
  rw [diags_countP N r c hr hc]
  split_ifs <;> norm_num

theorem C2_witness :
    2 ≤ 2 ∧
    ((∀ d ∈ diags 2, 2 ≤ d.length) ∧
    (∀ r c : Nat, r < 2 → c < 2 →
      (∀ k : Int, ((r * 2 + c) ∈ npDiag (vnum 2) k ↔ k = (c : Int) - (r : Int))) ∧
      (∀ k : Int, ((r * 2 + c) ∈ npDiag (rvnum 2) k ↔
        k = (2 : Int) - 1 - ((r : Int) + (c : Int)))) ∧
      ((diags 2).countP (fun d => decide ((r * 2 + c) ∈ d)) =
        (if -((2 : Int) - 2) ≤ (c : Int) - (r : Int) ∧ (c : Int) - (r : Int) < (2 : Int) - 1
          then 1 else 0) +
        (if -((2 : Int) - 2) ≤ (2 : Int) - 1 - ((r : Int) + (c : Int)) ∧
            (2 : Int) - 1 - ((r : Int) + (c : Int)) < (2 : Int) - 1
          then 1 else 0)) ∧
      (diags 2).countP (fun d => decide ((r * 2 + c) ∈ d)) ≤ 2)) :=
  ⟨by decide, C2_diagonal_enumerator 2 (by decide)⟩

/-- **C10.** The three indexings of the board agree: `board[(r,c)]` is the
variable named `varname r c`, which also sits at position `r*N+c` of the
label list, `vnum[r][c] = r*N+c`; every diagonal group consists exactly of
the squares on one geometric diagonal; and all constraint labels of the
built model are pairwise distinct. -/
theorem C10_indexing (N NQ r c : Nat) (hr : r < N) (hc : c < N) :
    board N r c = varname r c ∧
    (vlabels N).getD (r * N + c) "" = varname r c ∧
    ((vnum N).getD r []).getD c 0 = r * N + c ∧
    (∀ d ∈ diags N,
      ∃ k, k ∈ pyRange (-((N : Int) - 2)) ((N : Int) - 1) ∧
        ((∀ x, x ∈ d ↔ ∃ r' c' : Nat, r' < N ∧ c' < N ∧ x = r' * N + c' ∧
            (c' : Int) - (r' : Int) = k) ∨
         (∀ x, x ∈ d ↔ ∃ r' c' : Nat, r' < N ∧ c' < N ∧ x = r' * N + c' ∧
            (r' : Int) + (c' : Int) = (N : Int) - 1 - k))) ∧
    ((buildModel N NQ).constraints.map (fun ct => ct.label)).Nodup := by
  refine ⟨?_, ?_, vnum_entry hr hc, ?_, labels_nodup N NQ⟩
  · rw [board]
    exact variablesList_getD hr hc
  · show (variablesList N).getD (r * N + c) "" = varname r c
    exact variablesList_getD hr hc
  · intro d hd
    rcases mem_diags.1 hd with ⟨k, hk, rfl | rfl⟩
    · exact ⟨k, hk, Or.inl (fun x => mem_npDiag_vnum)⟩
    · exact ⟨k, hk, Or.inr (fun x => mem_npDiag_rvnum)⟩

theorem C10_witness :
    0 < 2 ∧ 1 < 2 ∧
    (board 2 0 1 = varname 0 1 ∧
    (vlabels 2).getD (0 * 2 + 1) "" = varname 0 1 ∧
    ((vnum 2).getD 0 []).getD 1 0 = 0 * 2 + 1 ∧
    (∀ d ∈ diags 2,
      ∃ k, k ∈ pyRange (-((2 : Int) - 2)) ((2 : Int) - 1) ∧
        ((∀ x, x ∈ d ↔ ∃ r' c' : Nat, r' < 2 ∧ c' < 2 ∧ x = r' * 2 + c' ∧
            (c' : Int) - (r' : Int) = k) ∨
         (∀ x, x ∈ d ↔ ∃ r' c' : Nat, r' < 2 ∧ c' < 2 ∧ x = r' * 2 + c' ∧
            (r' : Int) + (c' : Int) = (2 : Int) - 1 - k))) ∧
    ((buildModel 2 0).constraints.map (fun ct => ct.label)).Nodup) :=
  ⟨by decide, by decide, C10_indexing 2 0 0 1 (by decide) (by decide)⟩

set_option maxRecDepth 8000 in
/-- **C3.** The `N = 8`, `NQ = 8` model is satisfiable, and exactly 92 of the
0/1 assignments to the 64 square variables satisfy all four constraint
families simultaneously. -/
theorem C3_ninety_two :
    (∃ a : Fin 64 → Bool, satisfiesModel (fOf a) (buildModel 8 8) = true) ∧
    feasibleSet.card = 92 := by
  refine ⟨?_, feasibleSet_card⟩
  have hpos : 0 < feasibleSet.card := by
    rw [feasibleSet_card]
    norm_num
  obtain ⟨a, ha⟩ := Finset.card_pos.1 hpos
  rw [feasibleSet, Finset.mem_filter] at ha
  exact ⟨a, ha.2⟩

end NQueensCQM
